import Mathlib

/-!
Verification development for the MindType repository.

Shallow embedding of the text-processing core:
* `src/tools/mindtype_core.py` — structural validator and correction engine
  (namespace `MindtypeCore`);
* `src/tools/generate_fuzzy_training.py` — corruption operators, severity
  levels and sentence corruption policy (namespace `FuzzyGen`);
* `src/tools/generate_training_data.py` — the second word corruptor
  (namespace `TrainGen`).

Modelling conventions:
* Python strings are `List Char`; Python float ratios are `ℚ` (the decisive
  comparisons in the source stay far from representation boundaries, and the
  concrete `n*0.4`, `n*0.2`-style thresholds round to the exact rational for
  the integer sizes that occur);
* each call to `random.random() < p` (with `0 < p < 1`), `random.choice`,
  `random.choices` (all weights in the source are positive), `random.randint`
  and `random.sample` is fed from an explicit stream of naturals (`R`),
  threaded through every operator, so "for every sequence of random choices"
  becomes a `∀ r : R`; every stream value denotes a realizable outcome
  (indices are reduced mod the size of the support);
* Python exceptions from the inference collaborator are `Except Unit`
  results of explicit oracle functions; the engine itself is a total Lean
  function, which is the embedding of "never raises / never propagates".
-/

set_option maxRecDepth 10000

-- ═══════════════════════════════════════════════════════════════════════════
-- Generic string helpers (Python `str` semantics on `List Char`)
-- ═══════════════════════════════════════════════════════════════════════════

/-- The apostrophe character (used by the rejection patterns). -/
def apos : Char := Char.ofNat 39

/-- Whitespace characters recognised by Python `str.strip` / `str.split`
(ASCII subset: space, tab, newline, carriage return, vertical tab, form feed). -/
def isWS (c : Char) : Bool :=
  c == ' ' || c == Char.ofNat 9 || c == Char.ofNat 10 || c == Char.ofNat 13 ||
  c == Char.ofNat 11 || c == Char.ofNat 12

/-- Python `str.lower` (ASCII). -/
def listToLower (s : List Char) : List Char := s.map Char.toLower

/-- Python `str.strip()`. -/
def pyStrip (s : List Char) : List Char :=
  ((s.dropWhile isWS).reverse.dropWhile isWS).reverse

/-- Python `str.isalpha()`: non-empty and every character alphabetic. -/
def pyIsAlphaStr (s : List Char) : Bool := !s.isEmpty && s.all Char.isAlpha

/-- Splitter core: collect maximal runs of characters satisfying `keep`,
dropping separator characters (`acc` holds the current run, reversed). -/
def runsAux (keep : Char → Bool) : List Char → List Char → List (List Char)
  | [], acc => if acc.isEmpty then [] else [acc.reverse]
  | c :: rest, acc =>
    if keep c then runsAux keep rest (c :: acc)
    else if acc.isEmpty then runsAux keep rest []
    else acc.reverse :: runsAux keep rest []

/-- Python `str.split()` (split on whitespace runs, no empty fields). -/
def splitWS (s : List Char) : List (List Char) := runsAux (fun c => !isWS c) s []

/-- Maximal runs of `\w` characters (ASCII reading of the regex class). -/
def wordTokens (s : List Char) : List (List Char) :=
  runsAux (fun c => c.isAlphanum || c == Char.ofNat 95) s []

/-- Python `' '.join`. -/
def joinSpace : List (List Char) → List Char
  | [] => []
  | [w] => w
  | w :: ws => w ++ ' ' :: joinSpace ws

/-- Python `list.insert i a` for the index range used by the source
(`i ≤ length`). -/
def pyInsert (l : List α) (i : Nat) (a : α) : List α :=
  l.take i ++ a :: l.drop i

/-- Swap the elements at positions `i` and `i+1`. -/
def swapAdj (l : List α) (i : Nat) : List α :=
  l.take i ++ (match l.drop i with
    | a :: b :: t => b :: a :: t
    | t => t)

-- ═══════════════════════════════════════════════════════════════════════════
-- Randomness stream
-- ═══════════════════════════════════════════════════════════════════════════

/-- A sequence of random-call outcomes.  Exhaustion yields `0`, so universal
quantification over finite lists covers every execution (each run consumes
finitely many values). -/
def R : Type := List Nat

/-- Read the next raw value. -/
def rNext : R → Nat × R
  | [] => (0, [])
  | n :: t => (n, t)

/-- Outcome of a strict comparison of `random.random()` with a probability
in the open interval `(0, 1)`: both outcomes are realizable, so the stream
decides it. -/
def rCoin (r : R) : Bool × R :=
  let (n, r1) := rNext r
  (n % 2 == 0, r1)

/-- `random.choice l` / weighted `random.choices l` with positive weights:
every element is realizable, the stream picks the index. -/
def rChoice (l : List α) (d : α) (r : R) : α × R :=
  let (n, r1) := rNext r
  (l.getD (n % l.length) d, r1)

/-- `random.randint a b` (requires `a ≤ b` at every call site in the source). -/
def rRandInt (a b : Nat) (r : R) : Nat × R :=
  let (n, r1) := rNext r
  (a + n % (b + 1 - a), r1)

-- ═══════════════════════════════════════════════════════════════════════════
-- mindtype_core.py
-- ═══════════════════════════════════════════════════════════════════════════

namespace MindtypeCore

/-- `MindTypeConfig` (the fields consumed by the validation/correction logic;
`pause_ms`, `show_confidence` and `model_path` only drive IO-side behaviour
and are not part of the embedded logic). -/
structure MindTypeConfig where
  min_words : Nat
  min_chars : Nat
  length_ratio_max : ℚ
  length_ratio_min : ℚ
  sentence_tolerance : Nat
  enable_self_review : Bool
  return_original_on_failure : Bool
deriving DecidableEq

/-- `DEFAULT_CONFIG = MindTypeConfig()`. -/
def DEFAULT_CONFIG : MindTypeConfig :=
  { min_words := 3
    min_chars := 10
    length_ratio_max := (9 : ℚ) / 5
    length_ratio_min := (1 : ℚ) / 2
    sentence_tolerance := 1
    enable_self_review := true
    return_original_on_failure := true }

/-- `REJECTION_PATTERNS`: each regex is anchored at the start of the
(lower-cased, stripped) candidate, so matching is prefix testing. -/
def isRejection (s : List Char) : Bool :=
  -- ^i'?m not sure
  ( "im not sure".data).isPrefixOf s ||
  ( "i".data ++ apos :: "m not sure".data).isPrefixOf s ||
  -- ^i don'?t understand
  ( "i dont understand".data).isPrefixOf s ||
  ( "i don".data ++ apos :: "t understand".data).isPrefixOf s ||
  -- ^i can'?t
  ( "i cant".data).isPrefixOf s ||
  ( "i can".data ++ apos :: "t".data).isPrefixOf s ||
  -- ^sorry
  ( "sorry".data).isPrefixOf s ||
  -- ^please provide
  ( "please provide".data).isPrefixOf s ||
  -- ^what do you mean
  ( "what do you mean".data).isPrefixOf s ||
  -- ^could you
  ( "could you".data).isPrefixOf s ||
  -- ^can you
  ( "can you".data).isPrefixOf s ||
  -- ^it seems like
  ( "it seems like".data).isPrefixOf s ||
  -- ^i think you
  ( "i think you".data).isPrefixOf s ||
  -- ^this (text|input|message)
  ( "this text".data).isPrefixOf s ||
  ( "this input".data).isPrefixOf s ||
  ( "this message".data).isPrefixOf s ||
  -- ^the (text|input|message)
  ( "the text".data).isPrefixOf s ||
  ( "the input".data).isPrefixOf s ||
  ( "the message".data).isPrefixOf s

/-- Terminal punctuation for `re.findall(r'[.!?]+', text)`. -/
def isTermPunct (c : Char) : Bool := c == '.' || c == '!' || c == '?'

/-- Number of maximal runs of terminal punctuation
(`len(re.findall(r'[.!?]+', text))`). -/
def punctRunsAux : List Char → Bool → Nat
  | [], _ => 0
  | c :: t, inRun =>
    if isTermPunct c then
      if inRun then punctRunsAux t true else 1 + punctRunsAux t true
    else punctRunsAux t false

def punctRuns (s : List Char) : Nat := punctRunsAux s false

/-- Scanner for the `\.\s+[A-Z]` alternative of the caps regex
(state 0: idle, 1: just saw a dot, 2: saw dot then whitespace).  The caller
only reaches this regex when the text contains no `.` at all, so this count
is `0` there; it is embedded for fidelity to the source. -/
def dotWsCapAux : List Char → Nat → Nat
  | [], _ => 0
  | c :: t, st =>
    if st == 1 || st == 2 then
      if isWS c then dotWsCapAux t 2
      else if st == 2 && c.isUpper then 1 + dotWsCapAux t 0
      else if c == '.' then dotWsCapAux t 1
      else dotWsCapAux t 0
    else if c == '.' then dotWsCapAux t 1
    else dotWsCapAux t 0

def dotWsCap (s : List Char) : Nat := dotWsCapAux s 0

/-- The `^\s*[A-Z]` alternative: matches (once, at position 0) iff the text
starts with optional whitespace followed by an uppercase letter. -/
def startsWsUpper (s : List Char) : Bool :=
  match s.dropWhile isWS with
  | c :: _ => c.isUpper
  | [] => false

/-- `len(re.findall(r'\.\s+[A-Z]|^\s*[A-Z]', text))`. -/
def capsRegexCount (s : List Char) : Nat :=
  (if startsWsUpper s then 1 else 0) + dotWsCap s

/-- `count_sentences`. -/
def count_sentences (s : List Char) : Nat :=
  let explicit := punctRuns s
  if 0 < explicit then explicit
  else max 1 (capsRegexCount s)

/-- Modelled from the spec: "counting capitalized-word-after-space patterns"
(the fallback the spec and the source comment describe for punctuation-free
text) — the number of positions where a whitespace character is immediately
followed by an uppercase letter.  Used only to exhibit the divergence of
`count_sentences` from this description. -/
def capsWordsAfterSpace : List Char → Nat
  | a :: b :: t =>
    (if isWS a && b.isUpper then 1 else 0) + capsWordsAfterSpace (b :: t)
  | _ => 0

/-- Validation reasons (the source formats these as strings; the payloads
carry the data interpolated into them). -/
inductive Reason where
  | emptyOutput : Reason
  | conversational : Reason
  | tooLong : ℚ → Reason
  | tooShort : ℚ → Reason
  | structureChanged : Nat → Nat → Reason
  | stillGarbled : Reason
  | valid : Reason
  | modelNotFound : Reason
  | needMoreWords : Nat → Reason
  | needMoreText : Reason
  | interpretationError : Reason
  | noChangesNeeded : Reason
  | reviewUnreasonable : Reason
deriving DecidableEq

/-- `ValidationResult`. -/
structure ValidationResult where
  is_valid : Bool
  confidence : ℚ
  reason : Reason
deriving DecidableEq

/-- Consonant class of the "still garbled" regex
(`[bcdfghjklmnpqrstvwxz]`, note: no `y`). -/
def isGarbCons (c : Char) : Bool := ( "bcdfghjklmnpqrstvwxz".data).contains c

/-- `len(re.findall(r'\b[bcdfghjklmnpqrstvwxz]{4,}\b', s))`: a match is a
maximal `\w`-run consisting solely of those consonants, of length ≥ 4
(interior starts fail the left `\b`, trailing word chars fail the right). -/
def garbledCount (s : List Char) : Nat :=
  ((wordTokens s).filter (fun t => 4 ≤ t.length && t.all isGarbCons)).length

/-- `validate_interpretation`. -/
def validate_interpretation (input_text output_text : List Char)
    (config : MindTypeConfig := DEFAULT_CONFIG) : ValidationResult :=
  if (pyStrip output_text).isEmpty then ⟨false, 0, .emptyOutput⟩
  else
    let input_clean := pyStrip input_text
    let output_clean := pyStrip output_text
    let output_lower := listToLower output_clean
    if isRejection output_lower then ⟨false, 0, .conversational⟩
    else
      -- `ratio` is only read under the `len(input_clean) > 0` guards below,
      -- mirroring the source; division by zero is never consulted.
      let lenQuot : ℚ := (output_clean.length : ℚ) / (input_clean.length : ℚ)
      if 0 < input_clean.length ∧ config.length_ratio_max < lenQuot then
        ⟨false, 0, .tooLong lenQuot⟩
      else if 0 < input_clean.length ∧ lenQuot < config.length_ratio_min then
        ⟨false, 0, .tooShort lenQuot⟩
      else
        let input_sentences := count_sentences input_clean
        let output_sentences := count_sentences output_clean
        let diff := max (input_sentences - output_sentences)
          (output_sentences - input_sentences)
        if config.sentence_tolerance < diff then
          ⟨false, 0, .structureChanged input_sentences output_sentences⟩
        else if 2 < garbledCount output_lower then
          ⟨false, 0, .stillGarbled⟩
        else
          let length_score : ℚ :=
            if 0 < input_clean.length then 1 - |1 - lenQuot| * (1 / 2) else 1 / 2
          let sentence_score : ℚ := if diff = 0 then 1 else 7 / 10
          ⟨true, (length_score + sentence_score) / 2, .valid⟩

/-- `CorrectionResult` (`text` is `Optional[str]`). -/
structure CorrectionResult where
  success : Bool
  text : Option (List Char)
  confidence : ℚ
  reason : Reason
deriving DecidableEq

/-- `CorrectionEngine.correct`.  The inference collaborator is the pair of
oracles `interp` (pass 1) and `review` (pass 2); a Python exception raised by
a collaborator call is an `Except.error`.  `loaded` models whether
`load_model` succeeds.  The function is total: no exception escapes. -/
def correct (cfg : MindTypeConfig)
    (interp : List Char → Except Unit (List Char))
    (review : List Char → List Char → Except Unit Bool)
    (loaded : Bool) (text0 : List Char) : CorrectionResult :=
  let fallback : List Char → Option (List Char) := fun t =>
    if cfg.return_original_on_failure then some t else none
  if !loaded then ⟨false, some text0, 0, .modelNotFound⟩
  else
    let text := pyStrip text0
    let word_count := (splitWS text).length
    if word_count < cfg.min_words then
      ⟨false, fallback text, 0, .needMoreWords (cfg.min_words - word_count)⟩
    else if text.length < cfg.min_chars then
      ⟨false, fallback text, 0, .needMoreText⟩
    else
      match interp text with
      | .error _ => ⟨false, fallback text, 0, .interpretationError⟩
      | .ok interpreted =>
        if pyStrip (listToLower interpreted) = pyStrip (listToLower text) then
          ⟨true, some text, 1, .noChangesNeeded⟩
        else
          -- Pass 2: a raised exception is swallowed (`except: pass`) and the
          -- pipeline continues exactly as when the review approves.
          let reviewRejected : Bool :=
            if cfg.enable_self_review then
              match review text interpreted with
              | .ok b => !b
              | .error _ => false
            else false
          if reviewRejected then
            ⟨false, fallback text, 0, .reviewUnreasonable⟩
          else
            let v := validate_interpretation text interpreted cfg
            if v.is_valid then ⟨true, some interpreted, v.confidence, v.reason⟩
            else ⟨false, fallback text, v.confidence, v.reason⟩

end MindtypeCore

-- ═══════════════════════════════════════════════════════════════════════════
-- generate_fuzzy_training.py
-- ═══════════════════════════════════════════════════════════════════════════

namespace FuzzyGen

/-- `QWERTY_POS` in dict insertion order (key, row, col). -/
def qwertyPos : List (Char × Nat × Nat) :=
  [('q',0,0),('w',0,1),('e',0,2),('r',0,3),('t',0,4),
   ('y',0,5),('u',0,6),('i',0,7),('o',0,8),('p',0,9),
   ('a',1,0),('s',1,1),('d',1,2),('f',1,3),('g',1,4),
   ('h',1,5),('j',1,6),('k',1,7),('l',1,8),
   ('z',2,0),('x',2,1),('c',2,2),('v',2,3),('b',2,4),
   ('n',2,5),('m',2,6)]

def qwertyLookup (c : Char) : Option (Nat × Nat) :=
  (qwertyPos.find? (fun p => p.1 == c)).map (fun p => p.2)

/-- `get_adjacent_keys`: all keys in the 3×3 window around `char`
(row-major window scan, dict order inside each cell as in the source). -/
def get_adjacent_keys (c : Char) : List Char :=
  match qwertyLookup c with
  | none => [c]
  | some (row, col) =>
    let rlo := row - 1
    let rhi := min 3 (row + 2)
    let clo := col - 1
    let chi := min 10 (col + 2)
    let adjacent :=
      (List.range' rlo (rhi - rlo)).flatMap (fun rr =>
        (List.range' clo (chi - clo)).flatMap (fun cc =>
          qwertyPos.filterMap (fun p =>
            if p.2.1 == rr && p.2.2 == cc && p.1 != c then some p.1 else none)))
    if adjacent.isEmpty then [c] else adjacent

/-- `MUSCLE_MEMORY_ERRORS`. -/
def muscleTable : List (String × List String) :=
  [( "the", [ "teh", "hte", "th", "thw"]),
   ( "that", [ "taht", "tath", "htat"]),
   ( "this", [ "tihs", "thsi", "htis"]),
   ( "have", [ "hvae", "ahve", "hve"]),
   ( "with", [ "wiht", "wtih", "iwth"]),
   ( "from", [ "form", "fomr", "frmo"]),
   ( "they", [ "tehy", "thye", "htey"]),
   ( "what", [ "waht", "whta", "hwat"]),
   ( "your", [ "yoru", "yuor", "oyur"]),
   ( "just", [ "jsut", "juts", "ujst"]),
   ( "been", [ "eben", "bene", "benn"]),
   ( "would", [ "woudl", "owuld", "wuold"]),
   ( "could", [ "coudl", "cuold", "colud"]),
   ( "should", [ "shoudl", "shuold", "shold"]),
   ( "about", [ "abuot", "abotu", "baout"]),
   ( "there", [ "tehre", "theer", "htere"]),
   ( "their", [ "thier", "teir", "tehir"]),
   ( "which", [ "whihc", "wihch", "hwich"]),
   ( "think", [ "thnk", "thikn", "htink"]),
   ( "people", [ "poeple", "peopel", "pepole"]),
   ( "because", [ "becuase", "becasue", "beacuse"]),
   ( "through", [ "thorugh", "throuhg", "trhough"]),
   ( "before", [ "befroe", "beofre", "bfore"]),
   ( "after", [ "aftre", "atfer", "afetr"]),
   ( "something", [ "somehting", "somthing", "soemthing"]),
   ( "different", [ "differnet", "diferent", "diferrent"])]

def muscleLookup (w : List Char) : Option (List (List Char)) :=
  (muscleTable.find? (fun p => p.1.data == w)).map
    (fun p => p.2.map (fun v => v.data))

/-- `SAME_FINGER_PAIRS` after Python dict-literal evaluation (duplicate keys
in the literal resolve to the last binding: `d ↦ c`, `f ↦ v`, `s ↦ x`,
`j ↦ m`). -/
def sameFingerPair (c1 c2 : Char) : Bool :=
  [('e','d'),('d','c'),('c','d'),('r','f'),('f','v'),('v','f'),
   ('w','s'),('s','x'),('x','s'),('u','j'),('j','m'),('m','j'),
   ('i','k'),('k','i'),('o','l'),('l','o')].contains (c1, c2)

/-- Keyboard rows used by `corrupt_hand_shift`. -/
def keysByRow : List (List Char) :=
  [ "qwertyuiop".data, "asdfghjkl".data, "zxcvbnm".data]

/-- First index of `c` in a list, if any. -/
def idxOf? (c : Char) : List Char → Option Nat
  | [] => none
  | a :: t => if a == c then some 0 else (idxOf? c t).map (· + 1)

/-- Position of a (lowercase) key in its row, if any. -/
def rowIdx (c : Char) : Option (List Char × Nat) :=
  (keysByRow.filterMap (fun row =>
    match idxOf? c row with
    | some i => some (row, i)
    | none => none)).head?

/-- The `shift_map` entry for key `c` under shift `±1` (edge keys stay). -/
def shiftMapFn (shiftRight : Bool) (c : Char) : Char :=
  match rowIdx c with
  | none => c
  | some (row, i) =>
    if shiftRight then row.getD (i + 1) c
    else if i == 0 then c else row.getD (i - 1) c

/-- Per-character substitution pass shared by the in-place operators
(one output character per input character, threading the stream). -/
def substEach (f : Char → R → Char × R) : List Char → R → List Char × R
  | [], r => ([], r)
  | c :: cs, r =>
    let (c2, r1) := f c r
    let (rest, r2) := substEach f cs r1
    (c2 :: rest, r2)

/-- Case-preserving replacement (`replacement.upper() if c.isupper()`). -/
def caseLike (c rep : Char) : Char := if c.isUpper then rep.toUpper else rep

/-- `corrupt_adjacent` (the character step: probability check only when the
key is on the grid, then a uniform choice among the neighbours). -/
def adjChar (c : Char) (r : R) : Char × R :=
  if (qwertyLookup c.toLower).isSome then
    let (b, r1) := rCoin r
    if b then
      let adj := get_adjacent_keys c.toLower
      let (rep, r2) := rChoice adj c.toLower r1
      (caseLike c rep, r2)
    else (c, r1)
  else (c, r)

def corrupt_adjacent (word : List Char) (r : R) : List Char × R :=
  substEach adjChar word r

/-- `corrupt_hand_shift`. -/
def hsChar (shiftRight : Bool) (c : Char) (r : R) : Char × R :=
  if (rowIdx c.toLower).isSome then
    let (b, r1) := rCoin r
    if b then (caseLike c (shiftMapFn shiftRight c.toLower), r1) else (c, r1)
  else (c, r)

def corrupt_hand_shift (word : List Char) (r : R) : List Char × R :=
  if word.length < 3 then (word, r)
  else
    let (n, r1) := rNext r
    let shiftRight := n % 2 == 1   -- random.choice([-1, 1])
    substEach (hsChar shiftRight) word r1

/-- `corrupt_double_tap` inner loop (`result.insert(idx, result[idx])`). -/
def dtLoop : Nat → List Char → R → List Char × R
  | 0, res, r => (res, r)
  | k + 1, res, r =>
    if 1 < res.length then
      let (idx, r1) := rRandInt 0 (res.length - 1) r
      dtLoop k (pyInsert res idx (res.getD idx 'a')) r1
    else dtLoop k res r

def corrupt_double_tap (word : List Char) (r : R) : List Char × R :=
  if word.length < 2 then (word, r)
  else
    let (k, r1) := rRandInt 1 2 r
    dtLoop k word r1

/-- `corrupt_skip` (a probability check per character; empty result falls
back to the original word). -/
def skipAux : List Char → R → List Char × R
  | [], r => ([], r)
  | c :: cs, r =>
    let (keep, r1) := rCoin r   -- random.random() > intensity
    let (rest, r2) := skipAux cs r1
    (if keep then c :: rest else rest, r2)

def corrupt_skip (word : List Char) (r : R) : List Char × R :=
  if word.length < 3 then (word, r)
  else
    let (res, r1) := skipAux word r
    (if res.isEmpty then word else res, r1)

/-- `corrupt_transpose` inner loop. -/
def trLoop : Nat → List Char → R → List Char × R
  | 0, res, r => (res, r)
  | k + 1, res, r =>
    let (idx, r1) := rRandInt 0 (res.length - 2) r
    trLoop k (swapAdj res idx) r1

def corrupt_transpose (word : List Char) (r : R) : List Char × R :=
  if word.length < 2 then (word, r)
  else
    let (swaps, r1) := rRandInt 1 (max 1 (word.length / 3)) r
    trLoop swaps word r1

/-- `corrupt_insert_random`. -/
def irLoop : Nat → List Char → R → List Char × R
  | 0, res, r => (res, r)
  | k + 1, res, r =>
    let (idx, r1) := rRandInt 0 res.length r
    if idx < res.length then
      let c := res.getD idx 'a'
      if (qwertyLookup c.toLower).isSome then
        let (rep, r2) := rChoice (get_adjacent_keys c.toLower) c.toLower r1
        irLoop k (pyInsert res idx rep) r2
      else
        let (rep, r2) := rChoice ( "asdfghjkl".data) 'a' r1
        irLoop k (pyInsert res idx rep) r2
    else
      let (rep, r2) := rChoice ( "asdfghjkl".data) 'a' r1
      irLoop k (pyInsert res idx rep) r2

def corrupt_insert_random (word : List Char) (r : R) : List Char × R :=
  if word.length < 2 then (word, r)
  else
    let (k, r1) := rRandInt 1 2 r
    irLoop k word r1

/-- `corrupt_muscle_memory`. -/
def headIsUpper (w : List Char) : Bool :=
  match w with
  | c :: _ => c.isUpper
  | [] => false

def upFirst : List Char → List Char
  | [] => []
  | c :: t => c.toUpper :: t

def corrupt_muscle_memory (word : List Char) (r : R) : List Char × R :=
  match muscleLookup (listToLower word) with
  | some vs =>
    let (v, r1) := rChoice vs [] r
    (if headIsUpper word then upFirst v else v, r1)
  | none => (word, r)

/-- `corrupt_same_finger` scan (first matching same-finger pair is either
transposed or has its first character dropped; then the loop breaks). -/
def sfScan : List Char → R → List Char × R
  | c1 :: c2 :: rest, r =>
    if sameFingerPair c1.toLower c2.toLower then
      let (b, r1) := rCoin r
      (if b then c2 :: c1 :: rest else c2 :: rest, r1)
    else
      let (res, r1) := sfScan (c2 :: rest) r
      (c1 :: res, r1)
  | l, r => (l, r)

def corrupt_same_finger (word : List Char) (r : R) : List Char × R :=
  if word.length < 3 then (word, r) else sfScan word r

/-- First index `i` with `word[i] == word[i+1]`. -/
def findDouble : List Char → Option Nat
  | a :: b :: t => if a == b then some 0 else (findDouble (b :: t)).map (· + 1)
  | _ => none

/-- `corrupt_rhythm_error`. -/
def corrupt_rhythm_error (word : List Char) (r : R) : List Char × R :=
  match findDouble word with
  | some i =>
    let (b, r1) := rCoin r
    (if b then word.eraseIdx i else word, r1)
  | none =>
    if 2 < word.length then
      let (b, r1) := rCoin r
      if b then
        let (idx, r2) := rRandInt 1 (word.length - 1) r1
        (pyInsert word idx (word.getD (idx - 1) 'a'), r2)
      else (word, r1)
    else (word, r)

/-- `corrupt_vowel_drop`. -/
def isVowel (c : Char) : Bool := ( "aeiouAEIOU".data).contains c

def countVowels (w : List Char) : Nat := (w.filter isVowel).length

/-- The per-character loop of `corrupt_vowel_drop`; `vc` is the total vowel
count of the word, `dropped` the vowels dropped so far.  The probability
check is only evaluated (stream consumed) when the first two conditions
hold, mirroring Python short-circuiting. -/
def vdAux (vc : Nat) : List Char → Nat → R → List Char × R
  | [], _, r => ([], r)
  | c :: cs, dropped, r =>
    if isVowel c && dropped + 1 < vc then
      let (b, r1) := rCoin r
      if b then vdAux vc cs (dropped + 1) r1
      else
        let (res, r2) := vdAux vc cs dropped r1
        (c :: res, r2)
    else
      let (res, r1) := vdAux vc cs dropped r
      (c :: res, r1)

def corrupt_vowel_drop (word : List Char) (r : R) : List Char × R :=
  let (res, r1) := vdAux (countVowels word) word 0 r
  (if res.isEmpty then word else res, r1)

/-- `corrupt_home_row_drift` maps. -/
def driftUp (c : Char) : Option Char :=
  ([('a','q'),('s','w'),('d','e'),('f','r'),('g','t'),
    ('h','y'),('j','u'),('k','i'),('l','o')].find? (fun p => p.1 == c)).map
    (fun p => p.2)

def driftDown (c : Char) : Option Char :=
  ([('a','z'),('s','x'),('d','c'),('f','v'),('g','b'),
    ('h','n'),('j','m')].find? (fun p => p.1 == c)).map (fun p => p.2)

def driftChar (m : Char → Option Char) (c : Char) (r : R) : Char × R :=
  match m c.toLower with
  | some d =>
    let (b, r1) := rCoin r
    (if b then caseLike c d else c, r1)
  | none => (c, r)

def corrupt_home_row_drift (word : List Char) (r : R) : List Char × R :=
  let (up, r1) := rCoin r   -- random.random() < 0.5 picks drift_up
  substEach (driftChar (if up then driftUp else driftDown)) word r1

/-- `corrupt_run_together` inner merge loop. -/
def rtLoop : Nat → List (List Char) → R → List (List Char) × R
  | 0, res, r => (res, r)
  | k + 1, res, r =>
    let (idx, r1) := rRandInt 0 (res.length - 2) r
    rtLoop k
      (res.take idx ++ (res.getD idx [] ++ res.getD (idx + 1) []) ::
        res.drop (idx + 2)) r1

def corrupt_run_together (words : List (List Char)) (r : R) : List Char × R :=
  if words.length < 2 then (joinSpace words, r)
  else
    let (k, r1) := rRandInt 1 (min 2 (words.length - 1)) r
    let (res, r2) := rtLoop k words r1
    (joinSpace res, r2)

/-- `corrupt_split`. -/
def corrupt_split (word : List Char) (r : R) : List Char × R :=
  if word.length < 4 then (word, r)
  else
    let (p, r1) := rRandInt 2 (word.length - 2) r
    (word.take p ++ ' ' :: word.drop p, r1)

/-- `CorruptionLevel` (name and operation count; the `intensity` field only
biases the probability checks, which the stream decides, so it does not
appear in the embedded dynamics). -/
inductive Level where
  | light | medium | heavy | extreme
deriving DecidableEq

def Level.opsCount : Level → Nat
  | .light => 1
  | .medium => 2
  | .heavy => 3
  | .extreme => 4

/-- Identifiers for the word-level operators. -/
inductive OpKind where
  | handShift | vowelDrop | skip | adjacent | transpose
  | sameFinger | rhythm | homeRowDrift | doubleTap
deriving DecidableEq

def applyOp : OpKind → List Char → R → List Char × R
  | .handShift, w, r => corrupt_hand_shift w r
  | .vowelDrop, w, r => corrupt_vowel_drop w r
  | .skip, w, r => corrupt_skip w r
  | .adjacent, w, r => corrupt_adjacent w r
  | .transpose, w, r => corrupt_transpose w r
  | .sameFinger, w, r => corrupt_same_finger w r
  | .rhythm, w, r => corrupt_rhythm_error w r
  | .homeRowDrift, w, r => corrupt_home_row_drift w r
  | .doubleTap, w, r => corrupt_double_tap w r

/-- The per-level operation lists of `corrupt_word` (order as in the source;
all the weights in the source are positive, so every entry is realizable
and `random.choices` is embedded as a stream-picked index). -/
def opList : Level → List OpKind
  | .extreme => [.handShift, .vowelDrop, .skip, .adjacent, .transpose]
  | .heavy => [.vowelDrop, .adjacent, .transpose, .skip, .sameFinger,
               .rhythm, .homeRowDrift]
  | .medium => [.adjacent, .transpose, .rhythm, .sameFinger, .skip,
                .doubleTap]
  | .light => [.transpose, .adjacent, .rhythm, .sameFinger]

/-- The `for _ in range(num_ops)` loop of `corrupt_word`. -/
def corruptOps (lvl : Level) : Nat → List Char → R → List Char × R
  | 0, w, r => (w, r)
  | k + 1, w, r =>
    let ops := opList lvl
    let (n, r1) := rNext r
    let op := ops.getD (n % ops.length) .transpose
    let (w2, r2) := applyOp op w r1
    corruptOps lvl k w2 r2

/-- `corrupt_word`.  The safety floor `len(result) < len(word) * 0.4` is
`5 * len(result) < 2 * len(word)` (exact for the float arithmetic at the
word sizes involved). -/
def corrupt_word (word : List Char) (lvl : Level) (r : R) : List Char × R :=
  if word.length < 2 then (word, r)
  else if !pyIsAlphaStr word then (word, r)
  else
    let step : R → List Char × R := fun r1 =>
      let (res, r2) := corruptOps lvl lvl.opsCount word r1
      if 5 * res.length < 2 * word.length then corrupt_adjacent word r2
      else (res, r2)
    match muscleLookup (listToLower word) with
    | some _ =>
      let (b, r1) := rCoin r
      if b then corrupt_muscle_memory word r1 else step r1
    | none => step r

/-- How many words `corrupt_sentence` corrupts
(`max(1, int(len*0.2))` etc.; `int` truncation of the float products agrees
with Nat division at these magnitudes). -/
def numCorrupt : Level → Nat → Nat
  | .light, n => max 1 (n / 5)
  | .medium, n => max 1 (2 * n / 5)
  | .heavy, n => max 2 (3 * n / 5)
  | .extreme, n => max 3 (4 * n / 5)

/-- `random.sample(pool, k)`: `k` distinct picks without replacement, each
pick stream-indexed into the remaining pool. -/
def sampleAux : Nat → List Nat → R → List Nat × R
  | 0, _, r => ([], r)
  | _ + 1, [], r => ([], r)
  | k + 1, pool, r =>
    let (m, r1) := rNext r
    let i := m % pool.length
    let x := pool.getD i 0
    let (rest, r2) := sampleAux k (pool.eraseIdx i) r1
    (x :: rest, r2)

def sampleRange (n k : Nat) (r : R) : List Nat × R :=
  sampleAux k (List.range n) r

/-- The word loop of `corrupt_sentence` (`j` is the running index). -/
def corruptWords (lvl : Level) :
    List (List Char) → Nat → List Nat → R → List (List Char) × R
  | [], _, _, r => ([], r)
  | w :: ws, j, idxs, r =>
    if idxs.contains j then
      let (w2, r1) := corrupt_word w lvl r
      let (rest, r2) := corruptWords lvl ws (j + 1) idxs r1
      (w2 :: rest, r2)
    else
      let (rest, r1) := corruptWords lvl ws (j + 1) idxs r
      (w :: rest, r1)

/-- `corrupt_sentence`. -/
def corrupt_sentence (sentence : List Char) (lvl : Level) (r : R) :
    List Char × R :=
  let words := splitWS sentence
  let num_corrupt := numCorrupt lvl words.length
  let (corrupt_indices, r1) :=
    sampleRange words.length (min num_corrupt words.length) r
  let (result, r2) := corruptWords lvl words 0 corrupt_indices r1
  -- `if level in (HEAVY, EXTREME) and random.random() < 0.3`
  let (result2, r3) :=
    if lvl = .heavy ∨ lvl = .extreme then
      let (b, rb) := rCoin r2
      if b then
        let (joined, rc) := corrupt_run_together result rb
        (splitWS joined, rc)
      else (result, rb)
    else (result, r2)
  -- `if level == EXTREME and random.random() < 0.2`
  let (result3, r4) :=
    if lvl = .extreme then
      let (b, rb) := rCoin r3
      if b then
        let (idx, rc) := rRandInt 0 (result2.length - 1) rb
        let (sw, rd) := corrupt_split (result2.getD idx []) rc
        (result2.set idx sw, rd)
      else (result2, rb)
    else (result2, r3)
  (joinSpace result3, r4)

end FuzzyGen

-- ═══════════════════════════════════════════════════════════════════════════
-- generate_training_data.py
-- ═══════════════════════════════════════════════════════════════════════════

namespace TrainGen

/-- `QWERTY_ADJACENT`. -/
def qwertyAdjacent : List (Char × List Char) :=
  [('q', "wa12".data), ('w', "qeas23".data), ('e', "wrsd34".data),
   ('r', "etdf45".data), ('t', "ryfg56".data),
   ('y', "tugh67".data), ('u', "yijh78".data), ('i', "uokj89".data),
   ('o', "iplk90".data), ('p', "ol0".data),
   ('a', "qwsz".data), ('s', "awedxz".data), ('d', "serfcx".data),
   ('f', "drtgvc".data), ('g', "ftyhbv".data),
   ('h', "gyujnb".data), ('j', "huikmn".data), ('k', "jiolm".data),
   ('l', "kop".data),
   ('z', "asx".data), ('x', "zsdc".data), ('c', "xdfv".data),
   ('v', "cfgb".data), ('b', "vghn".data),
   ('n', "bhjm".data), ('m', "njk".data),
   ('1', "q2".data), ('2', "w13".data), ('3', "e24".data),
   ('4', "r35".data), ('5', "t46".data),
   ('6', "y57".data), ('7', "u68".data), ('8', "i79".data),
   ('9', "o80".data), ('0', "p9".data)]

def qwertyAdjLookup (c : Char) : Option (List Char) :=
  (qwertyAdjacent.find? (fun p => p.1 == c)).map (fun p => p.2)

/-- `VISUAL_CONFUSIONS`. -/
def visualConfusions : List (Char × Char) :=
  [('b','d'),('d','b'),('p','q'),('q','p'),
   ('m','n'),('n','m'),('u','v'),('v','u'),
   ('i','l'),('l','i'),('o','0'),('0','o'),
   ('g','q'),('a','e'),('e','a')]

/-- `COMMON_MISSPELLINGS`. -/
def commonMisspellings : List (String × List String) :=
  [( "the", [ "teh", "hte", "th"]),
   ( "and", [ "adn", "nad", "annd"]),
   ( "that", [ "taht", "tath", "htat"]),
   ( "with", [ "wiht", "wtih", "wth"]),
   ( "have", [ "hvae", "ahve", "hve"]),
   ( "this", [ "thsi", "tihs", "htis"]),
   ( "from", [ "form", "fom", "frmo"]),
   ( "they", [ "tehy", "htey", "tey"]),
   ( "been", [ "bene", "ben", "eben"]),
   ( "said", [ "siad", "sadi", "sid"]),
   ( "because", [ "becuase", "becasue", "beacuse", "becuz"]),
   ( "definitely", [ "definately", "definatly", "defintely", "defiantly"]),
   ( "receive", [ "recieve", "recive", "receve"]),
   ( "believe", [ "beleive", "belive", "beleave"]),
   ( "weird", [ "wierd", "werd", "werid"]),
   ( "friend", [ "freind", "frend", "freend"]),
   ( "which", [ "wich", "whcih", "whihc"]),
   ( "their", [ "thier", "ther", "tehir"]),
   ( "would", [ "woudl", "wuold", "woud"]),
   ( "could", [ "coudl", "cuold", "coud"]),
   ( "should", [ "shoudl", "shuold", "shoud"]),
   ( "people", [ "poeple", "peopel", "ppl"]),
   ( "through", [ "thorugh", "trough", "thru"]),
   ( "thought", [ "thougt", "thougth", "thot"]),
   ( "something", [ "somthing", "somehting", "smth"]),
   ( "different", [ "diffrent", "diferent", "diffrent"]),
   ( "important", [ "importnat", "importent", "improtant"]),
   ( "technology", [ "technolgy", "techonology", "technmology"]),
   ( "experience", [ "experiance", "expereince", "expreience"]),
   ( "environment", [ "enviroment", "enviornment", "envrionment"]),
   ( "government", [ "goverment", "governmnet", "govenrment"]),
   ( "necessary", [ "neccessary", "necesary", "neccesary"]),
   ( "immediately", [ "immediatly", "imediately", "immidiatley"]),
   ( "tomorrow", [ "tommorow", "tommorrow", "tomorow"]),
   ( "together", [ "togehter", "togather", "togheter"]),
   ( "beautiful", [ "beatiful", "beutiful", "beauitful"]),
   ( "successful", [ "succesful", "successfull", "sucessful"]),
   ( "beginning", [ "begining", "beggining", "begginning"]),
   ( "writing", [ "writting", "writng", "wrtiting"]),
   ( "probably", [ "probaly", "porbably", "prolly"])]

/-- Python `str.capitalize()` (upper-case head, lower-case tail). -/
def pyCapitalize : List Char → List Char
  | [] => []
  | c :: t => c.toUpper :: listToLower t

/-- Python `str.isupper()` (ASCII reading: some cased character and no
lower-case one). -/
def pyIsUpperStr (w : List Char) : Bool :=
  w.any Char.isAlpha && w.all (fun c => !c.isLower)

def listToUpper (s : List Char) : List Char := s.map Char.toUpper

/-- `adjacent_key_error`. -/
def adjacent_key_error (c : Char) (r : R) : (Char × Bool) × R :=
  match qwertyAdjLookup c.toLower with
  | some adj =>
    let (rep, r1) := rChoice adj 'a' r
    ((if c.isUpper then rep.toUpper else rep, true), r1)
  | none => ((c, false), r)

/-- `visual_confusion_error` (no randomness). -/
def visual_confusion_error (c : Char) : Char × Bool :=
  match (visualConfusions.find? (fun p => p.1 == c.toLower)).map
      (fun p => p.2) with
  | some d => (if c.isUpper then d.toUpper else d, true)
  | none => (c, false)

/-- `transpose_adjacent`: the weighted position pick (all weights positive)
is a stream-indexed choice among the `len-1` adjacent positions. -/
def transpose_adjacent (word : List Char) (r : R) : (List Char × Bool) × R :=
  if word.length < 2 then ((word, false), r)
  else
    let (n, r1) := rNext r
    let pos := n % (word.length - 1)
    ((swapAdj word pos, true), r1)

/-- `delete_character` (weighted pick, all weights positive). -/
def delete_character (word : List Char) (r : R) : (List Char × Bool) × R :=
  if word.length < 3 then ((word, false), r)
  else
    let (n, r1) := rNext r
    let pos := n % word.length
    ((word.eraseIdx pos, true), r1)

/-- `duplicate_character` (weighted pick, all weights positive). -/
def duplicate_character (word : List Char) (r : R) : (List Char × Bool) × R :=
  if word.length < 2 then ((word, false), r)
  else
    let (n, r1) := rNext r
    let pos := n % word.length
    ((pyInsert word pos (word.getD pos 'a'), true), r1)

/-- The `'adjacent'` lambda of `corrupt_word`: with probability 0.3 replace
the whole word by one adjacent-key substitute of a random character of the
word, else keep it; the modified flag is always `True`. -/
def adjacentLambda (w : List Char) (r : R) : (List Char × Bool) × R :=
  let (b, r1) := rCoin r
  if b then
    let (c, r2) := rChoice w 'a' r1
    let ((c2, _), r3) := adjacent_key_error c r2
    (([c2], true), r3)
  else ((w, true), r1)

/-- `apply_visual_corruption` (a 20% check per character). -/
def avcAux : List Char → R → (List Char × Bool) × R
  | [], r => (([], false), r)
  | c :: cs, r =>
    let (b, r1) := rCoin r
    let (cNew, hit) :=
      if b then
        let (c2, m) := visual_confusion_error c
        if m then (c2, true) else (c, false)
      else (c, false)
    let ((rest, mRest), r2) := avcAux cs r1
    ((cNew :: rest, hit || mRest), r2)

def apply_visual_corruption (word : List Char) (r : R) : (List Char × Bool) × R :=
  avcAux word r

/-- `apply_known_misspelling`. -/
def apply_known_misspelling (word : List Char) (r : R) : (List Char × Bool) × R :=
  match (commonMisspellings.find? (fun p => p.1.data == listToLower word)).map
      (fun p => p.2.map (fun v => v.data)) with
  | some vs =>
    let (m0, r1) := rChoice vs [] r
    let m1 := if headIsUpper word then pyCapitalize m0 else m0
    let m2 := if pyIsUpperStr word then listToUpper m1 else m1
    ((m2, true), r1)
  | none => ((word, false), r)
where
  headIsUpper (w : List Char) : Bool :=
    match w with
    | c :: _ => c.isUpper
    | [] => false

/-- `CorruptionResult`. -/
structure CorruptionResult where
  original : List Char
  corrupted : List Char
  error_types : List String := []
deriving DecidableEq

/-- Tags of the entries of `all_corruptions`. -/
inductive CKind where
  | transpose | delete | duplicate | adjacent | visual | misspelling
deriving DecidableEq

def applyCK : CKind → List Char → R → (List Char × Bool) × R
  | .transpose, w, r => transpose_adjacent w r
  | .delete, w, r => delete_character w r
  | .duplicate, w, r => duplicate_character w r
  | .adjacent, w, r => adjacentLambda w r
  | .visual, w, r => apply_visual_corruption w r
  | .misspelling, w, r => apply_known_misspelling w r

def allCorruptions : List (String × CKind) :=
  [( "transpose", .transpose), ( "delete", .delete),
   ( "duplicate", .duplicate), ( "adjacent", .adjacent),
   ( "visual", .visual), ( "misspelling", .misspelling)]

/-- The corruption loop of `corrupt_word`. -/
def cwLoop (corruptions : List (String × CKind)) :
    Nat → List Char → List String → R → (List Char × List String) × R
  | 0, res, app, r => ((res, app), r)
  | k + 1, res, app, r =>
    let (cont, r1) := rCoin r   -- random.random() > intensity
    if cont then cwLoop corruptions k res app r1
    else
      let ((name, ck), r2) :=
        rChoice corruptions ( "transpose", CKind.transpose) r1
      let ((wNew, modified), r3) := applyCK ck res r2
      if modified && wNew != res then
        cwLoop corruptions k wNew (app ++ [name]) r3
      else cwLoop corruptions k res app r3

/-- `corrupt_word` (the second generator's version). -/
def corrupt_word (word : List Char) (error_types : Option (List String))
    (r : R) : CorruptionResult × R :=
  if word.length < 2 then (⟨word, word, []⟩, r)
  else if !word.any Char.isAlpha then (⟨word, word, []⟩, r)
  else
    let corruptions :=
      match error_types with
      | some et => allCorruptions.filter (fun p => et.contains p.1)
      | none => allCorruptions
    if corruptions.isEmpty then (⟨word, word, []⟩, r)
    else
      -- `1 if random() > intensity else (2 if random() > 0.5 else 3)`
      let (b1, r1) := rCoin r
      let (num, r2) :=
        if b1 then (1, r1)
        else
          let (b2, rb) := rCoin r1
          ((if b2 then 2 else 3), rb)
      let ((res, app), r3) := cwLoop corruptions num word [] r2
      (⟨word, res, app⟩, r3)

end TrainGen

-- ═══════════════════════════════════════════════════════════════════════════
-- Validator lemmas and claims C1, C4, C5, C6
-- ═══════════════════════════════════════════════════════════════════════════

namespace MindtypeCore

lemma isEmpty_false_of_ne_nil {l : List Char} (h : l ≠ []) : l.isEmpty = false := by
  cases l with
  | nil => exact absurd rfl h
  | cons a t => rfl

lemma isRejection_ne_nil {s : List Char} (h : isRejection s = true) : s ≠ [] := by
  intro hs
  subst hs
  exact absurd h (by decide)

end MindtypeCore

/-- C5: whenever the stripped, lower-cased candidate matches one of the
rejection patterns (all of which are anchored at the start of the string),
`validate_interpretation` returns `is_valid = false` with reason
"conversational response", for every original and configuration. -/
theorem C5_theorem (cfg : MindtypeCore.MindTypeConfig) (orig cand : List Char)
    (h : MindtypeCore.isRejection (listToLower (pyStrip cand)) = true) :
    MindtypeCore.validate_interpretation orig cand cfg =
      ⟨false, 0, .conversational⟩ := by
  have hne : pyStrip cand ≠ [] := by
    intro hnil
    apply MindtypeCore.isRejection_ne_nil h
    rw [hnil]
    rfl
  have hempty : (pyStrip cand).isEmpty = false :=
    MindtypeCore.isEmpty_false_of_ne_nil hne
  unfold MindtypeCore.validate_interpretation
  simp only [hempty, h, Bool.false_eq_true, if_false, if_true]

/-- C5 witness: `validate("any text", "I'm not sure what you mean")` fails
with the conversational reason. -/
theorem C5_witness :
    MindtypeCore.validate_interpretation ( "any text".data)
      ( "I".data ++ apos :: "m not sure what you mean".data)
      MindtypeCore.DEFAULT_CONFIG = ⟨false, 0, .conversational⟩ :=
  C5_theorem MindtypeCore.DEFAULT_CONFIG _ _ (by decide)

/-- C4: `count_sentences` on the punctuation-free string `"a B C"` — the code
returns `1` (the `^\s*[A-Z]`-anchored alternative can match at most once and
the `\.\s+[A-Z]` alternative never matches text without a dot), whereas the
claimed "number of capitalized-word-after-space patterns (minimum 1)" is `2`:
the code contradicts its own comment ("estimate by capitalized words after
spaces"). -/
theorem C4_theorem :
    MindtypeCore.punctRuns ( "a B C".data) = 0 ∧
    MindtypeCore.count_sentences ( "a B C".data) = 1 ∧
    max 1 (MindtypeCore.capsWordsAfterSpace ( "a B C".data)) = 2 := by
  refine ⟨by decide, by decide, by decide⟩

/-- C6: with a non-empty stripped original and a candidate that passes the
emptiness and conversational checks, `validate_interpretation` rejects with
reason `tooLong q` whenever the stripped length ratio `q` exceeds the
configured maximum, and with reason `tooShort q` whenever `q` is below the
configured minimum (and not above the maximum, which is vacuous for any
sane configuration such as the default). -/
theorem C6_theorem (cfg : MindtypeCore.MindTypeConfig) (orig cand : List Char)
    (q : ℚ)
    (h0 : pyStrip orig ≠ [])
    (h1 : pyStrip cand ≠ [])
    (h2 : MindtypeCore.isRejection (listToLower (pyStrip cand)) = false)
    (hq : q = ((pyStrip cand).length : ℚ) / ((pyStrip orig).length : ℚ)) :
    (cfg.length_ratio_max < q →
      MindtypeCore.validate_interpretation orig cand cfg =
        ⟨false, 0, .tooLong q⟩) ∧
    (q ≤ cfg.length_ratio_max → q < cfg.length_ratio_min →
      MindtypeCore.validate_interpretation orig cand cfg =
        ⟨false, 0, .tooShort q⟩) := by
  have hempty : (pyStrip cand).isEmpty = false :=
    MindtypeCore.isEmpty_false_of_ne_nil h1
  have hlen : 0 < (pyStrip orig).length := List.length_pos.mpr h0
  constructor
  · intro hmax
    unfold MindtypeCore.validate_interpretation
    simp only [hempty, h2, Bool.false_eq_true, if_false]
    rw [if_pos ⟨hlen, hq ▸ hmax⟩]
    rw [hq]
  · intro hle hmin
    unfold MindtypeCore.validate_interpretation
    simp only [hempty, h2, Bool.false_eq_true, if_false]
    rw [if_neg (fun hc => absurd (hq ▸ hc.2) (not_lt.mpr hle))]
    rw [if_pos ⟨hlen, hq ▸ hmin⟩]
    rw [hq]

/-- C6 witness: `validate("hello world", "hi")` has ratio `2/11 < 0.5` and
fails with the "too short" reason. -/
theorem C6_witness :
    MindtypeCore.validate_interpretation ( "hello world".data) ( "hi".data)
      MindtypeCore.DEFAULT_CONFIG = ⟨false, 0, .tooShort ((2 : ℚ) / 11)⟩ ∧
    (2 : ℚ) / 11 < MindtypeCore.DEFAULT_CONFIG.length_ratio_min :=
  ⟨(C6_theorem MindtypeCore.DEFAULT_CONFIG ( "hello world".data) ( "hi".data)
      ((2 : ℚ) / 11) (by decide) (by decide) (by decide)
      (by
        have ha : (pyStrip ( "hi".data)).length = 2 := by decide
        have hb : (pyStrip ( "hello world".data)).length = 11 := by decide
        rw [ha, hb]
        norm_num)).2
      (by norm_num [MindtypeCore.DEFAULT_CONFIG])
      (by norm_num [MindtypeCore.DEFAULT_CONFIG]),
   by norm_num [MindtypeCore.DEFAULT_CONFIG]⟩

/-- C1 counterexample: the claim "validate(original, original) always passes
with confidence 1.0 regardless of the original's content" is false at
`original = "sorry"`: the round trip is rejected as a conversational
response. -/
theorem C1_counterexample :
    (MindtypeCore.validate_interpretation ( "sorry".data) ( "sorry".data)
      MindtypeCore.DEFAULT_CONFIG).is_valid = false := by
  rw [C5_theorem MindtypeCore.DEFAULT_CONFIG _ _ (by decide)]

/-- C1 (amended): for every original whose stripped form is non-empty, whose
stripped lower-cased form matches no rejection pattern, and which contains at
most two all-consonant word tokens of length ≥ 4, the round trip
`validate(original, original)` passes with confidence exactly 1 (the length
ratio is 1 and the sentence-count difference is 0). -/
theorem C1_theorem (orig : List Char)
    (h0 : pyStrip orig ≠ [])
    (h1 : MindtypeCore.isRejection (listToLower (pyStrip orig)) = false)
    (h2 : MindtypeCore.garbledCount (listToLower (pyStrip orig)) ≤ 2) :
    MindtypeCore.validate_interpretation orig orig MindtypeCore.DEFAULT_CONFIG
      = ⟨true, 1, .valid⟩ := by
  have hempty : (pyStrip orig).isEmpty = false :=
    MindtypeCore.isEmpty_false_of_ne_nil h0
  have hlen : 0 < (pyStrip orig).length := List.length_pos.mpr h0
  have hcast : ((pyStrip orig).length : ℚ) ≠ 0 :=
    Nat.cast_ne_zero.mpr (Nat.pos_iff_ne_zero.mp hlen)
  have hq : ((pyStrip orig).length : ℚ) / ((pyStrip orig).length : ℚ) = 1 :=
    div_self hcast
  unfold MindtypeCore.validate_interpretation
  simp only [hempty, h1, Bool.false_eq_true, if_false, hq]
  rw [if_neg (fun hc => by
    have := hc.2
    norm_num [MindtypeCore.DEFAULT_CONFIG] at this)]
  rw [if_neg (fun hc => by
    have := hc.2
    norm_num [MindtypeCore.DEFAULT_CONFIG] at this)]
  simp only [Nat.sub_self, max_self]
  rw [if_neg (by norm_num [MindtypeCore.DEFAULT_CONFIG])]
  rw [if_neg (Nat.not_lt.mpr h2)]
  simp only [if_pos hlen, if_pos rfl]
  norm_num

/-- C1 witness: the round trip passes with confidence 1 at a concrete
well-behaved original. -/
theorem C1_witness :
    MindtypeCore.validate_interpretation ( "hello there".data)
      ( "hello there".data) MindtypeCore.DEFAULT_CONFIG = ⟨true, 1, .valid⟩ :=
  C1_theorem ( "hello there".data) (by decide) (by decide) (by decide)

/-- C3 counterexample: an exception raised during the self-review pass is
not treated as a failure with fallback to the original — it is swallowed and
the engine can still succeed with the interpreted text.  Concretely, with an
interpreter returning "hello world test" for "helo wrld tst" and a review
oracle that raises, `correct` returns `success = true` with the interpreted
text, contradicting the claim that it returns `success = false` with the
original text. -/
theorem C3_counterexample :
    (MindtypeCore.correct MindtypeCore.DEFAULT_CONFIG
        (fun _ => .ok ( "hello world test".data))
        (fun _ _ => .error ()) true ( "helo wrld tst".data)).success = true ∧
    (MindtypeCore.correct MindtypeCore.DEFAULT_CONFIG
        (fun _ => .ok ( "hello world test".data))
        (fun _ _ => .error ()) true ( "helo wrld tst".data)).text =
      some ( "hello world test".data) := by
  have hv : MindtypeCore.validate_interpretation ( "helo wrld tst".data)
      ( "hello world test".data) MindtypeCore.DEFAULT_CONFIG =
      ⟨true, (49 : ℚ) / 52, .valid⟩ := by
    unfold MindtypeCore.validate_interpretation
    have h1 : (pyStrip ( "hello world test".data)).isEmpty = false := by decide
    have h2 : MindtypeCore.isRejection
        (listToLower (pyStrip ( "hello world test".data))) = false := by decide
    have hlo : (pyStrip ( "hello world test".data)).length = 16 := by decide
    have hli : (pyStrip ( "helo wrld tst".data)).length = 13 := by decide
    have hso : MindtypeCore.count_sentences
        (pyStrip ( "hello world test".data)) = 1 := by decide
    have hsi : MindtypeCore.count_sentences
        (pyStrip ( "helo wrld tst".data)) = 1 := by decide
    have hg : MindtypeCore.garbledCount
        (listToLower (pyStrip ( "hello world test".data))) = 0 := by decide
    have habs : |1 - ((16 : ℕ) : ℚ) / ((13 : ℕ) : ℚ)| = 3 / 13 := by
      rw [abs_of_nonpos (by norm_num)]
      push_cast
      norm_num
    simp only [h1, h2, Bool.false_eq_true, if_false, hlo, hli, hso, hsi, hg]
    rw [if_neg (by norm_num [MindtypeCore.DEFAULT_CONFIG])]
    rw [if_neg (by norm_num [MindtypeCore.DEFAULT_CONFIG])]
    simp only [Nat.sub_self, max_self]
    rw [if_neg (by norm_num [MindtypeCore.DEFAULT_CONFIG])]
    rw [if_neg (by norm_num)]
    rw [if_pos (by norm_num), habs]
    norm_num
  have hstrip : pyStrip ( "helo wrld tst".data) = "helo wrld tst".data := by
    decide
  have hcorr : MindtypeCore.correct MindtypeCore.DEFAULT_CONFIG
      (fun _ => .ok ( "hello world test".data))
      (fun _ _ => .error ()) true ( "helo wrld tst".data) =
      ⟨true, some ( "hello world test".data), (49 : ℚ) / 52, .valid⟩ := by
    unfold MindtypeCore.correct
    rw [hstrip]
    have hwc : ¬ ((splitWS ( "helo wrld tst".data)).length <
        MindtypeCore.DEFAULT_CONFIG.min_words) := by decide
    have hcc : ¬ (( "helo wrld tst".data).length <
        MindtypeCore.DEFAULT_CONFIG.min_chars) := by decide
    have hne : ¬ (pyStrip (listToLower ( "hello world test".data)) =
        pyStrip (listToLower ( "helo wrld tst".data))) := by decide
    simp only [Bool.not_true, Bool.false_eq_true, if_false, if_neg hwc,
      if_neg hcc, if_neg hne]
    simp only [show MindtypeCore.DEFAULT_CONFIG.enable_self_review = true from
      rfl, if_true, hv]
    rfl
  rw [hcorr]
  exact ⟨rfl, rfl⟩

/-- C3 (amended): under the default fallback behaviour and with the
minimum-input guards satisfied, (a) an exception raised by the collaborator
during the interpretation pass is caught and `correct` returns
`success = false` with the *stripped* input text and reason
"interpretation error"; (b) an exception raised during the self-review pass
is swallowed and `correct` behaves exactly as if the review had approved
(so it may go on to succeed with the interpreted text).  In both cases no
exception reaches the caller: `correct` is a total function. -/
theorem C3_theorem (cfg : MindtypeCore.MindTypeConfig)
    (interp : List Char → Except Unit (List Char))
    (review : List Char → List Char → Except Unit Bool) (text : List Char)
    (hrof : cfg.return_original_on_failure = true)
    (hw : cfg.min_words ≤ (splitWS (pyStrip text)).length)
    (hc : cfg.min_chars ≤ (pyStrip text).length)
    (herr : interp (pyStrip text) = .error ()) :
    MindtypeCore.correct cfg interp review true text =
      ⟨false, some (pyStrip text), 0, .interpretationError⟩ ∧
    ∀ interp2 : List Char → Except Unit (List Char),
      MindtypeCore.correct cfg interp2 (fun _ _ => .error ()) true text =
      MindtypeCore.correct cfg interp2 (fun _ _ => .ok true) true text := by
  constructor
  · unfold MindtypeCore.correct
    simp only [Bool.not_true, Bool.false_eq_true, if_false,
      if_neg (Nat.not_lt.mpr hw), if_neg (Nat.not_lt.mpr hc), herr, hrof,
      if_true]
  · intro interp2
    rfl

/-- C3 witness: concrete instance of the amended claim. -/
theorem C3_witness :
    MindtypeCore.correct MindtypeCore.DEFAULT_CONFIG (fun _ => .error ())
      (fun _ _ => .ok true) true ( "helo wrld tst".data) =
      ⟨false, some (pyStrip ( "helo wrld tst".data)), 0,
        .interpretationError⟩ :=
  (C3_theorem MindtypeCore.DEFAULT_CONFIG (fun _ => .error ())
    (fun _ _ => .ok true) ( "helo wrld tst".data) rfl (by decide) (by decide)
    rfl).1

-- ═══════════════════════════════════════════════════════════════════════════
-- Generic list lemmas
-- ═══════════════════════════════════════════════════════════════════════════

lemma getD_mem {l : List α} {i : Nat} {d : α} (h : i < l.length) :
    l.getD i d ∈ l := by
  induction l generalizing i with
  | nil => simp at h
  | cons a t ih =>
    cases i with
    | zero => simp [List.getD]
    | succ j =>
      have : j < t.length := by simpa using h
      simp only [List.getD_cons_succ]
      exact List.mem_cons_of_mem a (ih this)

lemma pyInsert_length (l : List α) (i : Nat) (a : α) :
    (pyInsert l i a).length = l.length + 1 := by
  unfold pyInsert
  simp only [List.length_append, List.length_cons, List.length_take,
    List.length_drop]
  omega

lemma pyInsert_mem {l : List α} {i : Nat} {a x : α}
    (hx : x ∈ pyInsert l i a) : x ∈ l ∨ x = a := by
  unfold pyInsert at hx
  rcases List.mem_append.mp hx with h | h
  · exact Or.inl (List.mem_of_mem_take h)
  · rcases List.mem_cons.mp h with h | h
    · exact Or.inr h
    · exact Or.inl (List.mem_of_mem_drop h)

lemma swapAdj_length (l : List α) (i : Nat) :
    (swapAdj l i).length = l.length := by
  unfold swapAdj
  cases hd : l.drop i with
  | nil =>
    simp only [List.length_append, List.length_take, hd, List.length_nil]
    have := List.length_drop i l
    rw [hd] at this
    simp at this
    omega
  | cons a t =>
    cases t with
    | nil =>
      simp only [List.length_append, List.length_take, hd, List.length_cons,
        List.length_nil]
      have := List.length_drop i l
      rw [hd] at this
      simp at this
      omega
    | cons b t2 =>
      simp only [List.length_append, List.length_take, hd, List.length_cons]
      have := List.length_drop i l
      rw [hd] at this
      simp at this
      omega

lemma swapAdj_mem {l : List α} {i : Nat} {x : α} (hx : x ∈ swapAdj l i) :
    x ∈ l := by
  unfold swapAdj at hx
  rcases List.mem_append.mp hx with h | h
  · exact List.mem_of_mem_take h
  · have h2 : x ∈ l.drop i := by
      cases hd : l.drop i with
      | nil => rw [hd] at h; simp at h
      | cons a t =>
        cases t with
        | nil => rw [hd] at h; simpa using h
        | cons b t2 =>
          rw [hd] at h
          simp only [List.mem_cons] at h ⊢
          tauto
    exact List.mem_of_mem_drop h2

lemma eraseIdx_sublist_mem {l : List α} {i : Nat} {x : α}
    (hx : x ∈ l.eraseIdx i) : x ∈ l :=
  (List.eraseIdx_sublist l i).mem hx

-- ═══════════════════════════════════════════════════════════════════════════
-- substEach lemmas
-- ═══════════════════════════════════════════════════════════════════════════

namespace FuzzyGen

lemma substEach_length (f : Char → R → Char × R) :
    ∀ (l : List Char) (r : R), ((substEach f l r).1).length = l.length := by
  intro l
  induction l with
  | nil => intro r; rfl
  | cons c cs ih =>
    intro r
    simp only [substEach]
    rcases hf : f c r with ⟨c2, r1⟩
    rcases hs : substEach f cs r1 with ⟨rest, r2⟩
    have h2 := ih r1
    rw [hs] at h2
    simpa using h2

lemma substEach_all (p : Char → Bool) (f : Char → R → Char × R)
    (hf : ∀ c r, p c = true → p (f c r).1 = true) :
    ∀ (l : List Char) (r : R), l.all p = true →
      ((substEach f l r).1).all p = true := by
  intro l
  induction l with
  | nil => intro r _; rfl
  | cons c cs ih =>
    intro r hall
    simp only [List.all_cons, Bool.and_eq_true] at hall
    simp only [substEach]
    rcases hf2 : f c r with ⟨c2, r1⟩
    rcases hs : substEach f cs r1 with ⟨rest, r2⟩
    simp only [List.all_cons, Bool.and_eq_true]
    constructor
    · have := hf c r hall.1
      rw [hf2] at this
      exact this
    · have := ih r1 hall.2
      rw [hs] at this
      exact this

end FuzzyGen

/-- C10: `corrupt_hand_shift` only substitutes characters in place: for every
word and every sequence of random choices the output has exactly the same
number of characters as the input, and words shorter than 3 characters are
returned unchanged (in particular the output is never longer than the
input). -/
theorem C10_theorem (word : List Char) (r : R) :
    ((FuzzyGen.corrupt_hand_shift word r).1).length = word.length ∧
    (word.length < 3 → (FuzzyGen.corrupt_hand_shift word r).1 = word) := by
  constructor
  · unfold FuzzyGen.corrupt_hand_shift
    by_cases h : word.length < 3
    · rw [if_pos h]
    · rw [if_neg h]
      rcases hn : rNext r with ⟨n, r1⟩
      simp only [FuzzyGen.substEach_length]
  · intro h
    unfold FuzzyGen.corrupt_hand_shift
    rw [if_pos h]

/-- C10 witness: concrete instances of both conjuncts. -/
theorem C10_witness :
    ((FuzzyGen.corrupt_hand_shift ( "upon".data) [1, 0, 0, 0, 0]).1).length
      = ( "upon".data).length ∧
    ( "hi".data).length < 3 ∧
    (FuzzyGen.corrupt_hand_shift ( "hi".data) [1]).1 = "hi".data :=
  ⟨(C10_theorem ( "upon".data) [1, 0, 0, 0, 0]).1, by decide,
   (C10_theorem ( "hi".data) [1]).2 (by decide)⟩

namespace FuzzyGen

lemma countVowels_cons (c : Char) (t : List Char) :
    countVowels (c :: t) =
      (if isVowel c = true then 1 else 0) + countVowels t := by
  unfold countVowels
  by_cases h : isVowel c = true
  · simp [List.filter_cons, h]
    omega
  · simp [List.filter_cons, h]

/-- Invariant of the `corrupt_vowel_drop` loop: at most `vc - 1 - dropped`
further vowels can be dropped, so the vowel count decreases by at most that
much. -/
lemma vdAux_vowels (vc : Nat) :
    ∀ (cs : List Char) (dropped : Nat) (r : R),
      countVowels cs ≤
        countVowels ((vdAux vc cs dropped r).1) + (vc - 1 - dropped) := by
  intro cs
  induction cs with
  | nil => intro dropped r; simp [vdAux, countVowels]
  | cons c cs ih =>
    intro dropped r
    rw [vdAux]
    split
    next hcond =>
      simp only [Bool.and_eq_true, decide_eq_true_eq] at hcond
      rcases hcoin : rCoin r with ⟨b, r1⟩
      cases b
      · rcases hres : vdAux vc cs dropped r1 with ⟨res, r2⟩
        have h2 := ih dropped r1
        rw [hres] at h2
        simp only [Bool.false_eq_true, if_false, hres, countVowels_cons,
          if_pos hcond.1]
        dsimp only at h2 ⊢
        omega
      · have h2 := ih (dropped + 1) r1
        simp only [if_true, countVowels_cons, if_pos hcond.1]
        omega
    next hcond =>
      rcases hres : vdAux vc cs dropped r with ⟨res, r2⟩
      have h2 := ih dropped r
      rw [hres] at h2
      simp only [hres, countVowels_cons]
      dsimp only at h2 ⊢
      by_cases hv : isVowel c = true
      · simp only [if_pos hv]
        omega
      · simp only [if_neg hv]
        omega

end FuzzyGen

/-- C7: for every word containing at least one vowel and every sequence of
random choices, `corrupt_vowel_drop` returns a string that still contains at
least one vowel (the loop never drops more than `vowel_count - 1` vowels,
and the empty-result fallback returns the original word). -/
theorem C7_theorem (word : List Char) (r : R)
    (h : 1 ≤ FuzzyGen.countVowels word) :
    1 ≤ FuzzyGen.countVowels ((FuzzyGen.corrupt_vowel_drop word r).1) := by
  unfold FuzzyGen.corrupt_vowel_drop
  rcases hres : FuzzyGen.vdAux (FuzzyGen.countVowels word) word 0 r
    with ⟨res, r1⟩
  have hinv := FuzzyGen.vdAux_vowels (FuzzyGen.countVowels word) word 0 r
  rw [hres] at hinv
  by_cases he : res.isEmpty = true
  · simp only [he, if_true]
    exact h
  · simp only [he, Bool.false_eq_true, if_false]
    dsimp only at hinv ⊢
    omega

/-- C7 witness: concrete instance ("hello", a stream that tries to drop
every vowel). -/
theorem C7_witness :
    1 ≤ FuzzyGen.countVowels ( "hello".data) ∧
    1 ≤ FuzzyGen.countVowels
      ((FuzzyGen.corrupt_vowel_drop ( "hello".data) [0, 0, 0, 0, 0]).1) :=
  ⟨by decide, C7_theorem ( "hello".data) [0, 0, 0, 0, 0] (by decide)⟩

lemma any_isAlpha_false {w : List Char}
    (h : w.all (fun c => !c.isAlpha) = true) : w.any Char.isAlpha = false := by
  induction w with
  | nil => rfl
  | cons a t ih =>
    simp only [List.all_cons, Bool.and_eq_true] at h
    simp only [List.any_cons, Bool.or_eq_false_iff]
    exact ⟨by simpa using h.1, ih h.2⟩

/-- C8: for every 1-character token and every token with no alphabetic
character, both word-level corruptors return the token unchanged, for every
severity level / error-type filter and every sequence of random choices
(and, being total functions, they raise nothing). -/
theorem C8_theorem (w : List Char) (lvl : FuzzyGen.Level) (r1 : R)
    (et : Option (List String)) (r2 : R)
    (h : w.length = 1 ∨ w.all (fun c => !c.isAlpha) = true) :
    (FuzzyGen.corrupt_word w lvl r1).1 = w ∧
    (TrainGen.corrupt_word w et r2).1 = ⟨w, w, []⟩ := by
  by_cases hlen : w.length < 2
  · constructor
    · unfold FuzzyGen.corrupt_word
      rw [if_pos hlen]
    · unfold TrainGen.corrupt_word
      rw [if_pos hlen]
  · have hna : w.all (fun c => !c.isAlpha) = true := by
      rcases h with h1 | h2
      · omega
      · exact h2
    have hany : w.any Char.isAlpha = false := any_isAlpha_false hna
    have halpha : pyIsAlphaStr w = false := by
      unfold pyIsAlphaStr
      cases w with
      | nil => rfl
      | cons a t =>
        simp only [List.all_cons, Bool.and_eq_true] at hna
        have ha : a.isAlpha = false := by simpa using hna.1
        simp [ha]
    constructor
    · unfold FuzzyGen.corrupt_word
      rw [if_neg hlen, if_pos (by rw [halpha]; rfl)]
    · unfold TrainGen.corrupt_word
      rw [if_neg hlen, if_pos (by rw [hany]; rfl)]

/-- C8 witness: a 1-character token and a punctuation-only token, through
both corruptors. -/
theorem C8_witness :
    (FuzzyGen.corrupt_word ( "x".data) .light [0, 1, 2]).1 = "x".data ∧
    (TrainGen.corrupt_word ( "x".data) none [0, 1, 2]).1 = ⟨ "x".data, "x".data, []⟩ ∧
    (FuzzyGen.corrupt_word ( ";;".data) .extreme [3, 4]).1 = ";;".data ∧
    (TrainGen.corrupt_word ( ";;".data) none [3, 4]).1 = ⟨ ";;".data, ";;".data, []⟩ :=
  ⟨(C8_theorem ( "x".data) .light [0, 1, 2] none [0, 1, 2] (by decide)).1,
   (C8_theorem ( "x".data) .light [0, 1, 2] none [0, 1, 2] (by decide)).2,
   (C8_theorem ( ";;".data) .extreme [3, 4] none [3, 4] (by decide)).1,
   (C8_theorem ( ";;".data) .extreme [3, 4] none [3, 4] (by decide)).2⟩

namespace FuzzyGen

lemma eraseIdx_len_le (l : List α) (i : Nat) :
    (l.eraseIdx i).length ≤ l.length :=
  (List.eraseIdx_sublist l i).length_le

lemma vdAux_len (vc : Nat) :
    ∀ (cs : List Char) (dropped : Nat) (r : R),
      ((vdAux vc cs dropped r).1).length ≤ cs.length := by
  intro cs
  induction cs with
  | nil => intro dropped r; simp [vdAux]
  | cons c cs ih =>
    intro dropped r
    rw [vdAux]
    split
    · rcases rCoin r with ⟨b, r1⟩
      cases b
      · rcases hres : vdAux vc cs dropped r1 with ⟨res, r2⟩
        have h2 := ih dropped r1
        rw [hres] at h2
        simp only [Bool.false_eq_true, if_false, hres]
        dsimp only at h2 ⊢
        simp only [List.length_cons]
        omega
      · have h2 := ih (dropped + 1) r1
        simp only [if_true, List.length_cons]
        omega
    · rcases hres : vdAux vc cs dropped r with ⟨res, r2⟩
      have h2 := ih dropped r
      rw [hres] at h2
      simp only [hres]
      dsimp only at h2 ⊢
      simp only [List.length_cons]
      omega

lemma vowel_drop_len (w : List Char) (r : R) :
    ((corrupt_vowel_drop w r).1).length ≤ w.length := by
  unfold corrupt_vowel_drop
  rcases hres : vdAux (countVowels w) w 0 r with ⟨res, r1⟩
  have := vdAux_len (countVowels w) w 0 r
  rw [hres] at this
  by_cases he : res.isEmpty = true
  · simp only [he, if_true]
    omega
  · simp only [he, Bool.false_eq_true, if_false]
    dsimp only at this ⊢
    omega

lemma skipAux_len : ∀ (cs : List Char) (r : R),
    ((skipAux cs r).1).length ≤ cs.length := by
  intro cs
  induction cs with
  | nil => intro r; simp [skipAux]
  | cons c cs ih =>
    intro r
    rw [skipAux]
    rcases rCoin r with ⟨keep, r1⟩
    dsimp only
    rcases hres : skipAux cs r1 with ⟨rest, r2⟩
    dsimp only
    have h2 := ih r1
    rw [hres] at h2
    dsimp only at h2
    cases keep
    · simp only [Bool.false_eq_true, if_false, List.length_cons]
      omega
    · simp only [if_true, List.length_cons]
      omega

lemma skip_len (w : List Char) (r : R) :
    ((corrupt_skip w r).1).length ≤ w.length := by
  unfold corrupt_skip
  by_cases hg : w.length < 3
  · rw [if_pos hg]
  · rw [if_neg hg]
    rcases hres : skipAux w r with ⟨res, r1⟩
    have := skipAux_len w r
    rw [hres] at this
    by_cases he : res.isEmpty = true
    · simp only [he, if_true]
      omega
    · simp only [he, Bool.false_eq_true, if_false]
      dsimp only at this ⊢
      omega

lemma trLoop_len : ∀ (k : Nat) (res : List Char) (r : R),
    ((trLoop k res r).1).length = res.length := by
  intro k
  induction k with
  | zero => intro res r; rfl
  | succ k ih =>
    intro res r
    rw [trLoop]
    rcases rRandInt 0 (res.length - 2) r with ⟨idx, r1⟩
    rw [ih, swapAdj_length]

lemma transpose_len (w : List Char) (r : R) :
    ((corrupt_transpose w r).1).length = w.length := by
  unfold corrupt_transpose
  by_cases hg : w.length < 2
  · rw [if_pos hg]
  · rw [if_neg hg]
    rcases rRandInt 1 (max 1 (w.length / 3)) r with ⟨swaps, r1⟩
    exact trLoop_len swaps w r1

lemma dtLoop_len : ∀ (k : Nat) (res : List Char) (r : R),
    ((dtLoop k res r).1).length ≤ res.length + k := by
  intro k
  induction k with
  | zero => intro res r; simp [dtLoop]
  | succ k ih =>
    intro res r
    rw [dtLoop]
    by_cases hg : 1 < res.length
    · rw [if_pos hg]
      rcases rRandInt 0 (res.length - 1) r with ⟨idx, r1⟩
      dsimp only
      have := ih (pyInsert res idx (res.getD idx 'a')) r1
      rw [pyInsert_length] at this
      omega
    · rw [if_neg hg]
      have := ih res r
      omega

lemma double_tap_len (w : List Char) (r : R) :
    ((corrupt_double_tap w r).1).length ≤ w.length + 2 := by
  unfold corrupt_double_tap
  by_cases hg : w.length < 2
  · rw [if_pos hg]
    dsimp only
    omega
  · rw [if_neg hg]
    rcases hk : rRandInt 1 2 r with ⟨k, r1⟩
    dsimp only
    have hk2 : k ≤ 2 := by
      unfold rRandInt at hk
      rcases rNext r with ⟨n, r2⟩
      simp only [Prod.mk.injEq] at hk
      omega
    have := dtLoop_len k w r1
    omega

lemma sfScan_len : ∀ (l : List Char) (r : R),
    ((sfScan l r).1).length ≤ l.length := by
  intro l
  induction l with
  | nil => intro r; simp [sfScan]
  | cons c1 t ih =>
    intro r
    cases t with
    | nil => simp [sfScan]
    | cons c2 rest =>
      rw [sfScan]
      by_cases hp : sameFingerPair c1.toLower c2.toLower = true
      · rw [if_pos hp]
        rcases rCoin r with ⟨b, r1⟩
        cases b <;> simp
      · rw [if_neg hp]
        rcases hs : sfScan (c2 :: rest) r with ⟨res, r1⟩
        have := ih r
        rw [hs] at this
        dsimp only at this ⊢
        simp only [List.length_cons] at this ⊢
        omega

lemma same_finger_len (w : List Char) (r : R) :
    ((corrupt_same_finger w r).1).length ≤ w.length := by
  unfold corrupt_same_finger
  by_cases hg : w.length < 3
  · rw [if_pos hg]
  · rw [if_neg hg]
    exact sfScan_len w r

lemma rhythm_len (w : List Char) (r : R) :
    ((corrupt_rhythm_error w r).1).length ≤ w.length + 1 := by
  unfold corrupt_rhythm_error
  cases hd : findDouble w with
  | some i =>
    dsimp only
    rcases rCoin r with ⟨b, r1⟩
    dsimp only
    cases b
    · simp only [Bool.false_eq_true, if_false]
      omega
    · simp only [if_true]
      have := eraseIdx_len_le w i
      omega
  | none =>
    dsimp only
    by_cases hg : 2 < w.length
    · rw [if_pos hg]
      rcases rCoin r with ⟨b, r1⟩
      dsimp only
      cases b
      · simp only [Bool.false_eq_true, if_false]
        omega
      · simp only [if_true]
        rcases rRandInt 1 (w.length - 1) r1 with ⟨idx, r2⟩
        dsimp only
        rw [pyInsert_length]
    · rw [if_neg hg]
      dsimp only
      omega

lemma hand_shift_len (w : List Char) (r : R) :
    ((corrupt_hand_shift w r).1).length = w.length := by
  unfold corrupt_hand_shift
  by_cases hg : w.length < 3
  · rw [if_pos hg]
  · rw [if_neg hg]
    rcases rNext r with ⟨n, r1⟩
    exact substEach_length _ w r1

lemma adjacent_len (w : List Char) (r : R) :
    ((corrupt_adjacent w r).1).length = w.length :=
  substEach_length adjChar w r

lemma drift_len (w : List Char) (r : R) :
    ((corrupt_home_row_drift w r).1).length = w.length := by
  unfold corrupt_home_row_drift
  rcases rCoin r with ⟨up, r1⟩
  exact substEach_length _ w r1

/-- Worst-case growth in characters of one application of each operator. -/
def opGrowth : OpKind → Nat
  | .doubleTap => 2
  | .rhythm => 1
  | _ => 0

lemma applyOp_len_ub (k : OpKind) (w : List Char) (r : R) :
    ((applyOp k w r).1).length ≤ w.length + opGrowth k := by
  cases k with
  | handShift => simpa [applyOp, opGrowth] using (hand_shift_len w r).le
  | vowelDrop => simpa [applyOp, opGrowth] using vowel_drop_len w r
  | skip => simpa [applyOp, opGrowth] using skip_len w r
  | adjacent => simpa [applyOp, opGrowth] using (adjacent_len w r).le
  | transpose => simpa [applyOp, opGrowth] using (transpose_len w r).le
  | sameFinger => simpa [applyOp, opGrowth] using same_finger_len w r
  | rhythm => simpa [applyOp, opGrowth] using rhythm_len w r
  | homeRowDrift => simpa [applyOp, opGrowth] using (drift_len w r).le
  | doubleTap => simpa [applyOp, opGrowth] using double_tap_len w r

end FuzzyGen

namespace FuzzyGen

/-- Table facts for the muscle-memory corrupter: every entry is non-empty and
every listed misspelling has at least 40% of, and at most, the length of the
word it replaces. -/
lemma muscle_facts : ∀ p ∈ muscleTable, p.2 ≠ [] ∧ ∀ v ∈ p.2,
    2 * p.1.data.length ≤ 5 * v.data.length ∧
      v.data.length ≤ p.1.data.length := by decide

lemma muscleLookup_char {w : List Char} {vs : List (List Char)}
    (h : muscleLookup w = some vs) :
    ∃ p ∈ muscleTable, p.1.data = w ∧ vs = p.2.map (fun v => v.data) := by
  unfold muscleLookup at h
  cases hf : muscleTable.find? (fun p => p.1.data == w) with
  | none => rw [hf] at h; simp at h
  | some p =>
    rw [hf] at h
    simp only [Option.map_some', Option.some.injEq] at h
    refine ⟨p, List.mem_of_find?_eq_some hf, ?_, h.symm⟩
    have := List.find?_some hf
    simpa using this

lemma upFirst_length (v : List Char) : (upFirst v).length = v.length := by
  cases v <;> rfl

lemma corrupt_muscle_memory_len (w : List Char) (r : R) :
    2 * w.length ≤ 5 * ((corrupt_muscle_memory w r).1).length ∧
    ((corrupt_muscle_memory w r).1).length ≤ w.length := by
  unfold corrupt_muscle_memory
  cases hm : muscleLookup (listToLower w) with
  | none =>
    dsimp only
    omega
  | some vs =>
    dsimp only
    obtain ⟨p, hp, hkey, hvs⟩ := muscleLookup_char hm
    have hkeylen : p.1.data.length = w.length := by
      rw [hkey]
      simp [listToLower]
    have hfacts := muscle_facts p hp
    have hvs_ne : vs ≠ [] := by
      rw [hvs]
      intro hc
      exact hfacts.1 (List.map_eq_nil_iff.mp hc)
    rcases hv : rChoice vs [] r with ⟨v, r1⟩
    dsimp only
    have hvmem : v ∈ vs := by
      unfold rChoice at hv
      rcases rNext r with ⟨n, r2⟩
      simp only [Prod.mk.injEq] at hv
      rw [← hv.1]
      exact getD_mem (Nat.mod_lt _ (List.length_pos.mpr hvs_ne))
    have hbounds : 2 * w.length ≤ 5 * v.length ∧ v.length ≤ w.length := by
      rw [hvs] at hvmem
      obtain ⟨x, hx, hxv⟩ := List.mem_map.mp hvmem
      have := (hfacts.2 x hx)
      rw [hkeylen, hxv] at this
      exact this
    by_cases hu : headIsUpper w = true
    · simp only [hu, if_true, upFirst_length]
      exact hbounds
    · simp only [hu, Bool.false_eq_true, if_false]
      exact hbounds

lemma opList_ne_nil (lvl : Level) : opList lvl ≠ [] := by
  cases lvl <;> decide

/-- Per-level growth bound of the listed operators. -/
def growthBound : Level → Nat
  | .light => 1
  | .medium => 2
  | .heavy => 1
  | .extreme => 0

lemma opList_growth (lvl : Level) :
    ∀ op ∈ opList lvl, opGrowth op ≤ growthBound lvl := by
  cases lvl <;> decide

lemma opsCount_mul_growth (lvl : Level) :
    lvl.opsCount * growthBound lvl ≤ 4 := by
  cases lvl <;> decide

lemma corruptOps_len_ub (lvl : Level) :
    ∀ (k : Nat) (w : List Char) (r : R),
      ((corruptOps lvl k w r).1).length ≤ w.length + k * growthBound lvl := by
  intro k
  induction k with
  | zero => intro w r; simp [corruptOps]
  | succ k ih =>
    intro w r
    rw [corruptOps]
    rcases rNext r with ⟨n, r1⟩
    dsimp only
    rcases hap : applyOp ((opList lvl).getD (n % (opList lvl).length)
        .transpose) w r1 with ⟨w2, r2⟩
    dsimp only
    have hop : opGrowth ((opList lvl).getD (n % (opList lvl).length)
        .transpose) ≤ growthBound lvl := by
      apply opList_growth
      exact getD_mem (Nat.mod_lt _ (List.length_pos.mpr (opList_ne_nil lvl)))
    have h1 := applyOp_len_ub ((opList lvl).getD (n % (opList lvl).length)
        .transpose) w r1
    rw [hap] at h1
    dsimp only at h1
    have h2 := ih w2 r2
    calc ((corruptOps lvl k w2 r2).1).length
        ≤ w2.length + k * growthBound lvl := h2
      _ ≤ (w.length + growthBound lvl) + k * growthBound lvl := by omega
      _ = w.length + (k + 1) * growthBound lvl := by ring

/-- Unconditional lower bound: the safety floor guarantees the result of
`corrupt_word` keeps at least 40% of the original length. -/
lemma corrupt_word_len_lb (w : List Char) (lvl : Level) (r : R) :
    2 * w.length ≤ 5 * ((corrupt_word w lvl r).1).length := by
  unfold corrupt_word
  by_cases hg1 : w.length < 2
  · rw [if_pos hg1]
    dsimp only
    omega
  · rw [if_neg hg1]
    by_cases hg2 : (!pyIsAlphaStr w) = true
    · rw [if_pos hg2]
      dsimp only
      omega
    · rw [if_neg hg2]
      cases hm : muscleLookup (listToLower w) with
      | none =>
        dsimp only
        by_cases hf : 5 * ((corruptOps lvl lvl.opsCount w r).1).length <
            2 * w.length
        · rw [if_pos hf, adjacent_len]
          omega
        · rw [if_neg hf]
          show 2 * w.length ≤ 5 * ((corruptOps lvl lvl.opsCount w r).1).length
          omega
      | some vs =>
        dsimp only
        rcases rCoin r with ⟨b, r1⟩
        dsimp only
        cases b
        · simp only [Bool.false_eq_true, if_false]
          by_cases hf : 5 * ((corruptOps lvl lvl.opsCount w r1).1).length <
              2 * w.length
          · rw [if_pos hf, adjacent_len]
            omega
          · rw [if_neg hf]
            show 2 * w.length ≤
              5 * ((corruptOps lvl lvl.opsCount w r1).1).length
            omega
        · simp only [if_true]
          exact (corrupt_muscle_memory_len w r1).1

/-- Unconditional upper bound: `corrupt_word` grows a word by at most 4
characters (at most `opsCount · growthBound` through the operator loop,
never through the muscle-memory table or the safety floor). -/
lemma corrupt_word_len_ub (w : List Char) (lvl : Level) (r : R) :
    ((corrupt_word w lvl r).1).length ≤ w.length + 4 := by
  unfold corrupt_word
  by_cases hg1 : w.length < 2
  · rw [if_pos hg1]
    dsimp only
    omega
  · rw [if_neg hg1]
    by_cases hg2 : (!pyIsAlphaStr w) = true
    · rw [if_pos hg2]
      dsimp only
      omega
    · rw [if_neg hg2]
      have hops : ∀ r1 : R, ((corruptOps lvl lvl.opsCount w r1).1).length ≤
          w.length + 4 := by
        intro r1
        have h1 := corruptOps_len_ub lvl lvl.opsCount w r1
        have h2 := opsCount_mul_growth lvl
        omega
      cases hm : muscleLookup (listToLower w) with
      | none =>
        dsimp only
        by_cases hf : 5 * ((corruptOps lvl lvl.opsCount w r).1).length <
            2 * w.length
        · rw [if_pos hf, adjacent_len]
          omega
        · rw [if_neg hf]
          exact hops r
      | some vs =>
        dsimp only
        rcases rCoin r with ⟨b, r1⟩
        dsimp only
        cases b
        · simp only [Bool.false_eq_true, if_false]
          by_cases hf : 5 * ((corruptOps lvl lvl.opsCount w r1).1).length <
              2 * w.length
          · rw [if_pos hf, adjacent_len]
            omega
          · rw [if_neg hf]
            exact hops r1
        · simp only [if_true]
          have := (corrupt_muscle_memory_len w r1).2
          omega

end FuzzyGen

-- ═══════════════════════════════════════════════════════════════════════════
-- Whitespace-freeness of the word-level operators (supports C9)
-- ═══════════════════════════════════════════════════════════════════════════

namespace FuzzyGen

/-- "Not a whitespace character": the word property the sentence corruption
preserves. -/
def nwChar (c : Char) : Bool := !isWS c

lemma all_of_mem_imp {l2 l1 : List α} {p : α → Bool}
    (hsub : ∀ x ∈ l2, x ∈ l1) (h : l1.all p = true) : l2.all p = true := by
  rw [List.all_eq_true] at h ⊢
  exact fun x hx => h x (hsub x hx)

lemma getD_default {l : List α} {i : Nat} {d : α} (h : l.length ≤ i) :
    l.getD i d = d := by
  induction l generalizing i with
  | nil => simp [List.getD]
  | cons a t ih =>
    cases i with
    | zero => simp at h
    | succ j =>
      simp only [List.getD_cons_succ]
      exact ih (by simpa using h)

lemma lookup_val_char {l : List (Char × Char)} {c d : Char}
    (h : ((l.find? (fun p => p.1 == c)).map (fun p => p.2)) = some d) :
    ∃ p ∈ l, p.2 = d := by
  cases hf : l.find? (fun p => p.1 == c) with
  | none => rw [hf] at h; simp at h
  | some p =>
    rw [hf] at h
    simp only [Option.map_some', Option.some.injEq] at h
    exact ⟨p, List.mem_of_find?_eq_some hf, h⟩

lemma adjKeys_facts : ∀ p ∈ qwertyPos, get_adjacent_keys p.1 ≠ [] ∧
    ∀ d ∈ get_adjacent_keys p.1, nwChar d = true ∧ nwChar d.toUpper = true := by
  decide

lemma qwertyLookup_mem {c : Char} (h : (qwertyLookup c).isSome = true) :
    ∃ p ∈ qwertyPos, p.1 = c := by
  unfold qwertyLookup at h
  cases hf : qwertyPos.find? (fun p => p.1 == c) with
  | none => rw [hf] at h; simp at h
  | some p =>
    have hp := List.find?_some hf
    exact ⟨p, List.mem_of_find?_eq_some hf, by simpa using hp⟩

lemma caseLike_nw {c rep : Char} (h1 : nwChar rep = true)
    (h2 : nwChar rep.toUpper = true) : nwChar (caseLike c rep) = true := by
  unfold caseLike
  by_cases hu : c.isUpper = true
  · rw [if_pos hu]; exact h2
  · rw [if_neg hu]; exact h1

lemma adjChar_nw (c : Char) (r : R) (hc : nwChar c = true) :
    nwChar (adjChar c r).1 = true := by
  unfold adjChar
  by_cases hl : (qwertyLookup c.toLower).isSome = true
  · rw [if_pos hl]
    rcases rCoin r with ⟨b, r1⟩
    dsimp only
    cases b
    · simpa using hc
    · simp only [if_true]
      obtain ⟨p, hp, hpc⟩ := qwertyLookup_mem hl
      have hfacts := adjKeys_facts p hp
      rw [hpc] at hfacts
      rcases hch : rChoice (get_adjacent_keys c.toLower) c.toLower r1
        with ⟨rep, r2⟩
      dsimp only
      have hrep : rep ∈ get_adjacent_keys c.toLower := by
        unfold rChoice at hch
        rcases rNext r1 with ⟨n, r3⟩
        simp only [Prod.mk.injEq] at hch
        rw [← hch.1]
        exact getD_mem (Nat.mod_lt _ (List.length_pos.mpr hfacts.1))
      exact caseLike_nw (hfacts.2 rep hrep).1 (hfacts.2 rep hrep).2
  · rw [if_neg hl]
    exact hc

lemma corrupt_adjacent_nw (w : List Char) (r : R) (h : w.all nwChar = true) :
    ((corrupt_adjacent w r).1).all nwChar = true :=
  substEach_all nwChar adjChar adjChar_nw w r h

lemma mem_of_idxOf? {c : Char} :
    ∀ {l : List Char} {i : Nat}, idxOf? c l = some i → c ∈ l := by
  intro l
  induction l with
  | nil => intro i h; simp [idxOf?] at h
  | cons a t ih =>
    intro i h
    rw [idxOf?] at h
    by_cases ha : (a == c) = true
    · have : a = c := by simpa using ha
      exact this ▸ List.mem_cons_self a t
    · rw [if_neg ha] at h
      cases hio : idxOf? c t with
      | none => rw [hio] at h; simp at h
      | some j => exact List.mem_cons_of_mem a (ih hio)

lemma rowIdx_char {c : Char} {row : List Char} {i : Nat}
    (h : rowIdx c = some (row, i)) : row ∈ keysByRow ∧ c ∈ row := by
  unfold rowIdx at h
  have hmem : (row, i) ∈ keysByRow.filterMap (fun row =>
      match idxOf? c row with
      | some i => some (row, i)
      | none => none) := by
    cases hl : keysByRow.filterMap (fun row =>
        match idxOf? c row with
        | some i => some (row, i)
        | none => none) with
    | nil => rw [hl] at h; simp at h
    | cons a t =>
      rw [hl] at h
      simp only [List.head?_cons, Option.some.injEq] at h
      rw [← h]
      exact List.mem_cons_self a t
  obtain ⟨row2, hrow2, hf⟩ := List.mem_filterMap.mp hmem
  cases hio : idxOf? c row2 with
  | none => rw [hio] at hf; simp at hf
  | some j =>
    rw [hio] at hf
    simp only [Option.some.injEq, Prod.mk.injEq] at hf
    rw [← hf.1]
    exact ⟨hrow2, mem_of_idxOf? hio⟩

lemma row_facts : ∀ row ∈ keysByRow, ∀ k ∈ row,
    nwChar k = true ∧ nwChar k.toUpper = true := by decide

lemma shiftMapFn_mem {c : Char} {row : List Char} {i : Nat}
    (h : rowIdx c = some (row, i)) (sr : Bool) : shiftMapFn sr c ∈ row := by
  have hcrow := (rowIdx_char h).2
  unfold shiftMapFn
  rw [h]
  dsimp only
  cases sr with
  | true =>
    simp only [if_true]
    rcases Nat.lt_or_ge (i + 1) row.length with hb | hb
    · exact getD_mem hb
    · rw [getD_default hb]
      exact hcrow
  | false =>
    simp only [Bool.false_eq_true, if_false]
    by_cases hz : (i == 0) = true
    · rw [if_pos hz]
      exact hcrow
    · rw [if_neg hz]
      rcases Nat.lt_or_ge (i - 1) row.length with hb | hb
      · exact getD_mem hb
      · rw [getD_default hb]
        exact hcrow

lemma hsChar_nw (sr : Bool) (c : Char) (r : R) (hc : nwChar c = true) :
    nwChar (hsChar sr c r).1 = true := by
  unfold hsChar
  by_cases hl : (rowIdx c.toLower).isSome = true
  · rw [if_pos hl]
    rcases rCoin r with ⟨b, r1⟩
    dsimp only
    cases b
    · simpa using hc
    · simp only [if_true]
      obtain ⟨⟨row, i⟩, hrow⟩ := Option.isSome_iff_exists.mp hl
      have hmem := shiftMapFn_mem hrow sr
      have hfacts := row_facts row (rowIdx_char hrow).1 _ hmem
      exact caseLike_nw hfacts.1 hfacts.2
  · rw [if_neg hl]
    exact hc

lemma corrupt_hand_shift_nw (w : List Char) (r : R)
    (h : w.all nwChar = true) :
    ((corrupt_hand_shift w r).1).all nwChar = true := by
  unfold corrupt_hand_shift
  by_cases hg : w.length < 3
  · rw [if_pos hg]
    exact h
  · rw [if_neg hg]
    rcases rNext r with ⟨n, r1⟩
    dsimp only
    exact substEach_all nwChar _ (hsChar_nw (n % 2 == 1)) w r1 h

lemma driftChar_nw (m : Char → Option Char)
    (hm : ∀ c d, m c = some d → nwChar d = true ∧ nwChar d.toUpper = true)
    (c : Char) (r : R) (hc : nwChar c = true) :
    nwChar (driftChar m c r).1 = true := by
  unfold driftChar
  cases hd : m c.toLower with
  | none => exact hc
  | some d =>
    rcases rCoin r with ⟨b, r1⟩
    dsimp only
    cases b
    · simpa using hc
    · simp only [if_true]
      exact caseLike_nw (hm _ _ hd).1 (hm _ _ hd).2

lemma driftUp_nw : ∀ c d, driftUp c = some d →
    nwChar d = true ∧ nwChar d.toUpper = true := by
  intro c d h
  unfold driftUp at h
  obtain ⟨p, hp, hpd⟩ := lookup_val_char h
  have hfacts : ∀ q ∈ [('a','q'),('s','w'),('d','e'),('f','r'),('g','t'),
      ('h','y'),('j','u'),('k','i'),('l','o')],
      nwChar q.2 = true ∧ nwChar q.2.toUpper = true := by decide
  exact hpd ▸ hfacts p hp

lemma driftDown_nw : ∀ c d, driftDown c = some d →
    nwChar d = true ∧ nwChar d.toUpper = true := by
  intro c d h
  unfold driftDown at h
  obtain ⟨p, hp, hpd⟩ := lookup_val_char h
  have hfacts : ∀ q ∈ [('a','z'),('s','x'),('d','c'),('f','v'),('g','b'),
      ('h','n'),('j','m')],
      nwChar q.2 = true ∧ nwChar q.2.toUpper = true := by decide
  exact hpd ▸ hfacts p hp

lemma corrupt_home_row_drift_nw (w : List Char) (r : R)
    (h : w.all nwChar = true) :
    ((corrupt_home_row_drift w r).1).all nwChar = true := by
  unfold corrupt_home_row_drift
  rcases rCoin r with ⟨up, r1⟩
  dsimp only
  cases up
  · simp only [Bool.false_eq_true, if_false]
    exact substEach_all nwChar _ (driftChar_nw driftDown driftDown_nw) w r1 h
  · simp only [if_true]
    exact substEach_all nwChar _ (driftChar_nw driftUp driftUp_nw) w r1 h

end FuzzyGen

namespace FuzzyGen

lemma rRandInt_bounds {a b : Nat} {r : R} {v : Nat} {r1 : R}
    (h : rRandInt a b r = (v, r1)) (hab : a ≤ b) : a ≤ v ∧ v ≤ b := by
  unfold rRandInt at h
  rcases hn : rNext r with ⟨n, r2⟩
  rw [hn] at h
  simp only [Prod.mk.injEq] at h
  have : n % (b + 1 - a) < b + 1 - a := Nat.mod_lt _ (by omega)
  omega

lemma trLoop_all (p : Char → Bool) : ∀ (k : Nat) (res : List Char) (r : R),
    res.all p = true → ((trLoop k res r).1).all p = true := by
  intro k
  induction k with
  | zero => intro res r h; exact h
  | succ k ih =>
    intro res r h
    rw [trLoop]
    rcases rRandInt 0 (res.length - 2) r with ⟨idx, r1⟩
    dsimp only
    exact ih _ r1 (all_of_mem_imp (fun x hx => swapAdj_mem hx) h)

lemma corrupt_transpose_nw (w : List Char) (r : R) (h : w.all nwChar = true) :
    ((corrupt_transpose w r).1).all nwChar = true := by
  unfold corrupt_transpose
  by_cases hg : w.length < 2
  · rw [if_pos hg]
    exact h
  · rw [if_neg hg]
    rcases rRandInt 1 (max 1 (w.length / 3)) r with ⟨swaps, r1⟩
    dsimp only
    exact trLoop_all nwChar swaps w r1 h

lemma sfScan_all (p : Char → Bool) : ∀ (l : List Char) (r : R),
    l.all p = true → ((sfScan l r).1).all p = true := by
  intro l
  induction l with
  | nil => intro r h; exact h
  | cons c1 t ih =>
    intro r h
    cases t with
    | nil => exact h
    | cons c2 rest =>
      rw [sfScan]
      by_cases hp : sameFingerPair c1.toLower c2.toLower = true
      · rw [if_pos hp]
        rcases rCoin r with ⟨b, r1⟩
        dsimp only
        simp only [List.all_cons, Bool.and_eq_true] at h
        cases b
        · simp only [Bool.false_eq_true, if_false, List.all_cons,
            Bool.and_eq_true]
          exact ⟨h.2.1, h.2.2⟩
        · simp only [if_true, List.all_cons, Bool.and_eq_true]
          exact ⟨h.2.1, h.1, h.2.2⟩
      · rw [if_neg hp]
        rcases hs : sfScan (c2 :: rest) r with ⟨res, r1⟩
        dsimp only
        simp only [List.all_cons, Bool.and_eq_true] at h
        have hpack : (c2 :: rest).all p = true := by
          simp only [List.all_cons, Bool.and_eq_true]
          exact ⟨h.2.1, h.2.2⟩
        have h2 := ih r hpack
        rw [hs] at h2
        simp only [List.all_cons, Bool.and_eq_true]
        exact ⟨h.1, h2⟩

lemma corrupt_same_finger_nw (w : List Char) (r : R)
    (h : w.all nwChar = true) :
    ((corrupt_same_finger w r).1).all nwChar = true := by
  unfold corrupt_same_finger
  by_cases hg : w.length < 3
  · rw [if_pos hg]
    exact h
  · rw [if_neg hg]
    exact sfScan_all nwChar w r h

lemma corrupt_rhythm_error_nw (w : List Char) (r : R)
    (h : w.all nwChar = true) :
    ((corrupt_rhythm_error w r).1).all nwChar = true := by
  unfold corrupt_rhythm_error
  cases hd : findDouble w with
  | some i =>
    dsimp only
    rcases rCoin r with ⟨b, r1⟩
    dsimp only
    cases b
    · simpa using h
    · simp only [if_true]
      exact all_of_mem_imp (fun x hx => eraseIdx_sublist_mem hx) h
  | none =>
    dsimp only
    by_cases hg : 2 < w.length
    · rw [if_pos hg]
      rcases rCoin r with ⟨b, r1⟩
      dsimp only
      cases b
      · simpa using h
      · simp only [if_true]
        rcases hri : rRandInt 1 (w.length - 1) r1 with ⟨idx, r2⟩
        have hb := rRandInt_bounds hri (by omega)
        dsimp only
        refine all_of_mem_imp ?_ h
        intro x hx
        rcases pyInsert_mem hx with hmem | heq
        · exact hmem
        · rw [heq]
          exact getD_mem (by omega)
    · rw [if_neg hg]
      exact h

lemma skipAux_mem : ∀ (cs : List Char) (r : R) (x : Char),
    x ∈ (skipAux cs r).1 → x ∈ cs := by
  intro cs
  induction cs with
  | nil => intro r x hx; simp [skipAux] at hx
  | cons c cs ih =>
    intro r x hx
    rw [skipAux] at hx
    rcases hcoin : rCoin r with ⟨keep, r1⟩
    rw [hcoin] at hx
    dsimp only at hx
    rcases hres : skipAux cs r1 with ⟨rest, r2⟩
    rw [hres] at hx
    dsimp only at hx
    cases keep
    · simp only [Bool.false_eq_true, if_false] at hx
      refine List.mem_cons_of_mem c (ih r1 x ?_)
      rw [hres]
      exact hx
    · simp only [if_true, List.mem_cons] at hx
      rcases hx with hx | hx
      · exact hx ▸ List.mem_cons_self c cs
      · refine List.mem_cons_of_mem c (ih r1 x ?_)
        rw [hres]
        exact hx

lemma corrupt_skip_nw (w : List Char) (r : R) (h : w.all nwChar = true) :
    ((corrupt_skip w r).1).all nwChar = true := by
  unfold corrupt_skip
  by_cases hg : w.length < 3
  · rw [if_pos hg]
    exact h
  · rw [if_neg hg]
    rcases hres : skipAux w r with ⟨res, r1⟩
    dsimp only
    by_cases he : res.isEmpty = true
    · simp only [he, if_true]
      exact h
    · simp only [he, Bool.false_eq_true, if_false]
      refine all_of_mem_imp ?_ h
      intro x hx
      exact skipAux_mem w r x (hres ▸ hx)

lemma vdAux_mem (vc : Nat) : ∀ (cs : List Char) (dropped : Nat) (r : R)
    (x : Char), x ∈ (vdAux vc cs dropped r).1 → x ∈ cs := by
  intro cs
  induction cs with
  | nil => intro dropped r x hx; simp [vdAux] at hx
  | cons c cs ih =>
    intro dropped r x hx
    rw [vdAux] at hx
    split at hx
    · rcases hcoin : rCoin r with ⟨b, r1⟩
      rw [hcoin] at hx
      dsimp only at hx
      cases b
      · simp only [Bool.false_eq_true, if_false] at hx
        rcases hres : vdAux vc cs dropped r1 with ⟨res, r2⟩
        rw [hres] at hx
        dsimp only at hx
        rcases List.mem_cons.mp hx with hx | hx
        · exact hx ▸ List.mem_cons_self c cs
        · refine List.mem_cons_of_mem c (ih dropped r1 x ?_)
          rw [hres]
          exact hx
      · simp only [if_true] at hx
        exact List.mem_cons_of_mem c (ih (dropped + 1) r1 x hx)
    · rcases hres : vdAux vc cs dropped r with ⟨res, r2⟩
      rw [hres] at hx
      dsimp only at hx
      rcases List.mem_cons.mp hx with hx | hx
      · exact hx ▸ List.mem_cons_self c cs
      · refine List.mem_cons_of_mem c (ih dropped r x ?_)
        rw [hres]
        exact hx

lemma corrupt_vowel_drop_nw (w : List Char) (r : R)
    (h : w.all nwChar = true) :
    ((corrupt_vowel_drop w r).1).all nwChar = true := by
  unfold corrupt_vowel_drop
  rcases hres : vdAux (countVowels w) w 0 r with ⟨res, r1⟩
  dsimp only
  by_cases he : res.isEmpty = true
  · simp only [he, if_true]
    exact h
  · simp only [he, Bool.false_eq_true, if_false]
    refine all_of_mem_imp ?_ h
    intro x hx
    exact vdAux_mem (countVowels w) w 0 r x (hres ▸ hx)

lemma dtLoop_all (p : Char → Bool) : ∀ (k : Nat) (res : List Char) (r : R),
    res.all p = true → ((dtLoop k res r).1).all p = true := by
  intro k
  induction k with
  | zero => intro res r h; exact h
  | succ k ih =>
    intro res r h
    rw [dtLoop]
    by_cases hg : 1 < res.length
    · rw [if_pos hg]
      rcases hri : rRandInt 0 (res.length - 1) r with ⟨idx, r1⟩
      have hb := rRandInt_bounds hri (by omega)
      dsimp only
      apply ih _ r1
      refine all_of_mem_imp ?_ h
      intro x hx
      rcases pyInsert_mem hx with hmem | heq
      · exact hmem
      · rw [heq]
        exact getD_mem (by omega)
    · rw [if_neg hg]
      exact ih res r h

lemma corrupt_double_tap_nw (w : List Char) (r : R)
    (h : w.all nwChar = true) :
    ((corrupt_double_tap w r).1).all nwChar = true := by
  unfold corrupt_double_tap
  by_cases hg : w.length < 2
  · rw [if_pos hg]
    exact h
  · rw [if_neg hg]
    rcases rRandInt 1 2 r with ⟨k, r1⟩
    dsimp only
    exact dtLoop_all nwChar k w r1 h

lemma muscle_nw : ∀ p ∈ muscleTable, ∀ v ∈ p.2,
    (v.data).all nwChar = true ∧ (upFirst v.data).all nwChar = true := by
  decide

lemma corrupt_muscle_memory_nw (w : List Char) (r : R) :
    w.all nwChar = true → ((corrupt_muscle_memory w r).1).all nwChar = true := by
  intro h
  unfold corrupt_muscle_memory
  cases hm : muscleLookup (listToLower w) with
  | none => exact h
  | some vs =>
    dsimp only
    obtain ⟨p, hp, hkey, hvs⟩ := muscleLookup_char hm
    have hvs_ne : vs ≠ [] := by
      rw [hvs]
      intro hc
      exact (muscle_facts p hp).1 (List.map_eq_nil_iff.mp hc)
    rcases hv : rChoice vs [] r with ⟨v, r1⟩
    dsimp only
    have hvmem : v ∈ vs := by
      unfold rChoice at hv
      rcases rNext r with ⟨n, r2⟩
      simp only [Prod.mk.injEq] at hv
      rw [← hv.1]
      exact getD_mem (Nat.mod_lt _ (List.length_pos.mpr hvs_ne))
    obtain ⟨x, hx, hxv⟩ := List.mem_map.mp (hvs ▸ hvmem)
    have hfacts := muscle_nw p hp x hx
    by_cases hu : headIsUpper w = true
    · simp only [hu, if_true]
      rw [← hxv]
      exact hfacts.2
    · simp only [hu, Bool.false_eq_true, if_false]
      rw [← hxv]
      exact hfacts.1

lemma applyOp_nw (k : OpKind) (w : List Char) (r : R)
    (h : w.all nwChar = true) : ((applyOp k w r).1).all nwChar = true := by
  cases k with
  | handShift => exact corrupt_hand_shift_nw w r h
  | vowelDrop => exact corrupt_vowel_drop_nw w r h
  | skip => exact corrupt_skip_nw w r h
  | adjacent => exact corrupt_adjacent_nw w r h
  | transpose => exact corrupt_transpose_nw w r h
  | sameFinger => exact corrupt_same_finger_nw w r h
  | rhythm => exact corrupt_rhythm_error_nw w r h
  | homeRowDrift => exact corrupt_home_row_drift_nw w r h
  | doubleTap => exact corrupt_double_tap_nw w r h

lemma corruptOps_nw (lvl : Level) : ∀ (k : Nat) (w : List Char) (r : R),
    w.all nwChar = true → ((corruptOps lvl k w r).1).all nwChar = true := by
  intro k
  induction k with
  | zero => intro w r h; exact h
  | succ k ih =>
    intro w r h
    rw [corruptOps]
    rcases rNext r with ⟨n, r1⟩
    dsimp only
    rcases hap : applyOp ((opList lvl).getD (n % (opList lvl).length)
        .transpose) w r1 with ⟨w2, r2⟩
    dsimp only
    apply ih w2 r2
    have := applyOp_nw ((opList lvl).getD (n % (opList lvl).length)
        .transpose) w r1 h
    rw [hap] at this
    exact this

lemma corrupt_word_nw (w : List Char) (lvl : Level) (r : R)
    (h : w.all nwChar = true) :
    ((corrupt_word w lvl r).1).all nwChar = true := by
  unfold corrupt_word
  by_cases hg1 : w.length < 2
  · rw [if_pos hg1]
    exact h
  · rw [if_neg hg1]
    by_cases hg2 : (!pyIsAlphaStr w) = true
    · rw [if_pos hg2]
      exact h
    · rw [if_neg hg2]
      have hstep : ∀ r1 : R,
          (((if 5 * ((corruptOps lvl lvl.opsCount w r1).1).length <
              2 * w.length then
            corrupt_adjacent w (corruptOps lvl lvl.opsCount w r1).2
          else corruptOps lvl lvl.opsCount w r1)).1).all nwChar = true := by
        intro r1
        by_cases hf : 5 * ((corruptOps lvl lvl.opsCount w r1).1).length <
            2 * w.length
        · rw [if_pos hf]
          exact corrupt_adjacent_nw w _ h
        · rw [if_neg hf]
          exact corruptOps_nw lvl lvl.opsCount w r1 h
      cases hm : muscleLookup (listToLower w) with
      | none =>
        dsimp only
        exact hstep r
      | some vs =>
        dsimp only
        rcases rCoin r with ⟨b, r1⟩
        dsimp only
        cases b
        · simp only [Bool.false_eq_true, if_false]
          exact hstep r1
        · simp only [if_true]
          exact corrupt_muscle_memory_nw w r1 h

lemma corrupt_word_ne_nil (w : List Char) (lvl : Level) (r : R)
    (h : w ≠ []) : (corrupt_word w lvl r).1 ≠ [] := by
  have hlb := corrupt_word_len_lb w lvl r
  have hw : 1 ≤ w.length := List.length_pos.mpr h
  intro hc
  rw [hc] at hlb
  simp only [List.length_nil, Nat.mul_zero] at hlb
  omega

end FuzzyGen

namespace FuzzyGen

lemma corruptWords_length (lvl : Level) :
    ∀ (ws : List (List Char)) (j : Nat) (idxs : List Nat) (r : R),
      ((corruptWords lvl ws j idxs r).1).length = ws.length := by
  intro ws
  induction ws with
  | nil => intro j idxs r; rfl
  | cons w ws ih =>
    intro j idxs r
    rw [corruptWords]
    by_cases hc : idxs.contains j = true
    · rw [if_pos hc]
      rcases hcw : corrupt_word w lvl r with ⟨w2, r1⟩
      dsimp only
      rcases hrest : corruptWords lvl ws (j + 1) idxs r1 with ⟨rest, r2⟩
      dsimp only
      have := ih (j + 1) idxs r1
      rw [hrest] at this
      simp only [List.length_cons]
      rw [← this]
    · rw [if_neg hc]
      rcases hrest : corruptWords lvl ws (j + 1) idxs r with ⟨rest, r2⟩
      dsimp only
      have := ih (j + 1) idxs r
      rw [hrest] at this
      simp only [List.length_cons]
      rw [← this]

lemma corruptWords_unchanged (lvl : Level) :
    ∀ (ws : List (List Char)) (j : Nat) (idxs : List Nat) (r : R) (k : Nat),
      idxs.contains (j + k) = false →
      ((corruptWords lvl ws j idxs r).1).get? k = ws.get? k := by
  intro ws
  induction ws with
  | nil => intro j idxs r k _; rfl
  | cons w ws ih =>
    intro j idxs r k hk
    rw [corruptWords]
    by_cases hc : idxs.contains j = true
    · rw [if_pos hc]
      rcases hcw : corrupt_word w lvl r with ⟨w2, r1⟩
      dsimp only
      rcases hrest : corruptWords lvl ws (j + 1) idxs r1 with ⟨rest, r2⟩
      dsimp only
      cases k with
      | zero =>
        rw [Nat.add_zero] at hk
        rw [hk] at hc
        exact absurd hc (by simp)
      | succ k2 =>
        simp only [List.get?_cons_succ]
        have := ih (j + 1) idxs r1 k2 (by
          have : j + 1 + k2 = j + (k2 + 1) := by omega
          rw [this]
          exact hk)
        rw [hrest] at this
        exact this
    · rw [if_neg hc]
      rcases hrest : corruptWords lvl ws (j + 1) idxs r with ⟨rest, r2⟩
      dsimp only
      cases k with
      | zero => rfl
      | succ k2 =>
        simp only [List.get?_cons_succ]
        have := ih (j + 1) idxs r k2 (by
          have : j + 1 + k2 = j + (k2 + 1) := by omega
          rw [this]
          exact hk)
        rw [hrest] at this
        exact this

lemma corruptWords_good (lvl : Level) :
    ∀ (ws : List (List Char)) (j : Nat) (idxs : List Nat) (r : R),
      (∀ w ∈ ws, w ≠ [] ∧ w.all nwChar = true) →
      ∀ w2 ∈ (corruptWords lvl ws j idxs r).1,
        w2 ≠ [] ∧ w2.all nwChar = true := by
  intro ws
  induction ws with
  | nil => intro j idxs r _ w2 hw2; simp [corruptWords] at hw2
  | cons w ws ih =>
    intro j idxs r hws w2 hw2
    rw [corruptWords] at hw2
    have hw := hws w (List.mem_cons_self w ws)
    have hrest2 : ∀ v ∈ ws, v ≠ [] ∧ v.all nwChar = true :=
      fun v hv => hws v (List.mem_cons_of_mem w hv)
    by_cases hc : idxs.contains j = true
    · rw [if_pos hc] at hw2
      rcases hcw : corrupt_word w lvl r with ⟨wc, r1⟩
      rw [hcw] at hw2
      dsimp only at hw2
      rcases hrest : corruptWords lvl ws (j + 1) idxs r1 with ⟨rest, r2⟩
      rw [hrest] at hw2
      dsimp only at hw2
      rcases List.mem_cons.mp hw2 with hx | hx
      · subst hx
        constructor
        · have := corrupt_word_ne_nil w lvl r hw.1
          rw [hcw] at this
          exact this
        · have := corrupt_word_nw w lvl r hw.2
          rw [hcw] at this
          exact this
      · refine ih (j + 1) idxs r1 hrest2 w2 ?_
        rw [hrest]
        exact hx
    · rw [if_neg hc] at hw2
      rcases hrest : corruptWords lvl ws (j + 1) idxs r with ⟨rest, r2⟩
      rw [hrest] at hw2
      dsimp only at hw2
      rcases List.mem_cons.mp hw2 with hx | hx
      · subst hx
        exact hw
      · refine ih (j + 1) idxs r hrest2 w2 ?_
        rw [hrest]
        exact hx

end FuzzyGen

-- ═══════════════════════════════════════════════════════════════════════════
-- split/join round trip
-- ═══════════════════════════════════════════════════════════════════════════

lemma runsAux_keepRun (keep : Char → Bool) :
    ∀ (w l2 acc : List Char), w.all keep = true →
      runsAux keep (w ++ l2) acc = runsAux keep l2 (w.reverse ++ acc) := by
  intro w
  induction w with
  | nil => intro l2 acc _; rfl
  | cons c t ih =>
    intro l2 acc hall
    simp only [List.all_cons, Bool.and_eq_true] at hall
    rw [List.cons_append, runsAux, if_pos hall.1, ih l2 (c :: acc) hall.2]
    simp

lemma splitWS_join (ws : List (List Char))
    (h : ∀ w ∈ ws, w ≠ [] ∧ w.all FuzzyGen.nwChar = true) :
    splitWS (joinSpace ws) = ws := by
  induction ws with
  | nil => rfl
  | cons w ws ih =>
    have hw := h w (List.mem_cons_self w ws)
    have hkeep : w.all (fun c => !isWS c) = true := hw.2
    have hrev_ne : w.reverse ≠ [] := by
      intro hc
      exact hw.1 (by simpa using congrArg List.reverse hc)
    cases ws with
    | nil =>
      show runsAux (fun c => !isWS c) (joinSpace [w]) [] = [w]
      have : joinSpace [w] = w ++ [] := by simp [joinSpace]
      rw [this, runsAux_keepRun _ w [] [] hkeep]
      simp only [List.append_nil, runsAux]
      rw [if_neg (by simpa using hrev_ne)]
      simp
    | cons v ws2 =>
      have hjoin : joinSpace (w :: v :: ws2) =
          w ++ ' ' :: joinSpace (v :: ws2) := by
        rfl
      show runsAux (fun c => !isWS c) (joinSpace (w :: v :: ws2)) [] =
        w :: v :: ws2
      rw [hjoin, runsAux_keepRun _ w _ [] hkeep]
      simp only [List.append_nil]
      rw [runsAux]
      rw [if_neg (by decide), if_neg (by simpa using hrev_ne)]
      have ih2 := ih (fun v2 hv2 => h v2 (List.mem_cons_of_mem w hv2))
      unfold splitWS at ih2
      rw [ih2]
      simp

/-- C9: for every sequence of random choices,
`corrupt_sentence("The quick brown fox jumps", LIGHT)` selects exactly
`max(1, int(5·0.2)) = 1` word for corruption and returns a sentence that
splits into exactly 5 whitespace-separated words, the other 4 of which are
unchanged (at LIGHT level neither run-together nor split is applied). -/
theorem C9_theorem (r : R) :
    FuzzyGen.numCorrupt .light 5 = 1 ∧
    (splitWS ((FuzzyGen.corrupt_sentence
        ( "The quick brown fox jumps".data) .light r).1)).length = 5 ∧
    ∃ i < 5, ∀ j : Nat, j ≠ i →
      (splitWS ((FuzzyGen.corrupt_sentence
          ( "The quick brown fox jumps".data) .light r).1)).get? j =
        (splitWS ( "The quick brown fox jumps".data)).get? j := by
  have hlen : (splitWS ( "The quick brown fox jumps".data)).length = 5 := by
    decide
  have hgood : ∀ w ∈ splitWS ( "The quick brown fox jumps".data),
      w ≠ [] ∧ w.all FuzzyGen.nwChar = true := by decide
  rcases hsr : rNext r with ⟨m, r1⟩
  have hm5 : m % 5 < 5 := Nat.mod_lt _ (by omega)
  have hsample : FuzzyGen.sampleRange 5 1 r = ([m % 5], r1) := by
    unfold FuzzyGen.sampleRange
    rw [FuzzyGen.sampleAux]
    rw [hsr]
    dsimp only
    rw [FuzzyGen.sampleAux]
    have hget : (List.range 5).getD (m % 5) 0 = m % 5 := by
      show ((List.range 5).get? (m % 5)).getD 0 = m % 5
      rw [List.get?_range hm5]
      rfl
    simp only [List.length_range]
    rw [hget]
    decide
  have hmain : (FuzzyGen.corrupt_sentence
      ( "The quick brown fox jumps".data) .light r).1 =
      joinSpace ((FuzzyGen.corruptWords .light
        (splitWS ( "The quick brown fox jumps".data)) 0 [m % 5] r1).1) := by
    unfold FuzzyGen.corrupt_sentence
    dsimp only
    rw [hlen]
    rw [show min (FuzzyGen.numCorrupt .light 5) 5 = 1 by decide]
    rw [hsample]
    dsimp only
    rcases hcw : FuzzyGen.corruptWords .light
        (splitWS ( "The quick brown fox jumps".data)) 0 [m % 5] r1
      with ⟨res, r2⟩
    dsimp only
    rw [if_neg (by decide), if_neg (by decide)]
  rcases hcw : FuzzyGen.corruptWords .light
      (splitWS ( "The quick brown fox jumps".data)) 0 [m % 5] r1
    with ⟨res, r2⟩
  rw [hcw] at hmain
  dsimp only at hmain
  have hres_good : ∀ w2 ∈ res, w2 ≠ [] ∧ w2.all FuzzyGen.nwChar = true := by
    intro w2 hw2
    refine FuzzyGen.corruptWords_good .light
      (splitWS ( "The quick brown fox jumps".data)) 0 [m % 5] r1 hgood w2 ?_
    rw [hcw]
    exact hw2
  have hsplit : splitWS (joinSpace res) = res := splitWS_join res hres_good
  have hres_len : res.length = 5 := by
    have := FuzzyGen.corruptWords_length .light
      (splitWS ( "The quick brown fox jumps".data)) 0 [m % 5] r1
    rw [hcw] at this
    dsimp only at this
    rw [this, hlen]
  refine ⟨rfl, ?_, ⟨m % 5, hm5, ?_⟩⟩
  · rw [hmain, hsplit, hres_len]
  · intro j hj
    rw [hmain, hsplit]
    have hcont : ([m % 5] : List Nat).contains (0 + j) = false := by
      have hne : ¬ (0 + j = m % 5) := by omega
      simp only [List.contains_cons, List.contains_nil, Bool.or_false]
      exact beq_false_of_ne (by omega)
    have := FuzzyGen.corruptWords_unchanged .light
      (splitWS ( "The quick brown fox jumps".data)) 0 [m % 5] r1 j hcont
    rw [hcw] at this
    dsimp only at this
    exact this

/-- C2 counterexample: the claimed upper bound `2·len(w)` fails for short
words.  At MEDIUM severity the operator loop can pick `corrupt_double_tap`
twice with two insertions each, growing the alphabetic 2-character word
"ab" to 6 characters (`6 > 2·2`); the safety floor only repairs words that
became too SHORT, so the result stands. -/
theorem C2_counterexample :
    pyIsAlphaStr ( "ab".data) = true ∧ 2 ≤ ( "ab".data).length ∧
    ((FuzzyGen.corrupt_word ( "ab".data) .medium
        [5, 1, 0, 0, 5, 1, 0, 0]).1).length = 6 ∧
    ¬ (((FuzzyGen.corrupt_word ( "ab".data) .medium
        [5, 1, 0, 0, 5, 1, 0, 0]).1).length ≤ 2 * ( "ab".data).length) := by
  refine ⟨by decide, by decide, by decide, by decide⟩

/-- C2 (amended): for every alphabetic word `w` with `len(w) ≥ 2`, every
severity level and every sequence of random choices, the string returned by
`corrupt_word` (after its safety-floor repair) has length at least
`0.4·len(w)` (i.e. `5·len(result) ≥ 2·len(w)`) and at most `len(w) + 4`;
consequently the originally claimed interval `[0.4·len(w), 2·len(w)]` does
hold whenever `len(w) ≥ 4`. -/
theorem C2_theorem (w : List Char) (lvl : FuzzyGen.Level) (r : R)
    (h1 : pyIsAlphaStr w = true) (h2 : 2 ≤ w.length) :
    2 * w.length ≤ 5 * ((FuzzyGen.corrupt_word w lvl r).1).length ∧
    ((FuzzyGen.corrupt_word w lvl r).1).length ≤ w.length + 4 ∧
    (4 ≤ w.length →
      ((FuzzyGen.corrupt_word w lvl r).1).length ≤ 2 * w.length) := by
  refine ⟨FuzzyGen.corrupt_word_len_lb w lvl r,
    FuzzyGen.corrupt_word_len_ub w lvl r, fun h4 => ?_⟩
  have := FuzzyGen.corrupt_word_len_ub w lvl r
  omega

/-- C2 witness: concrete instance of the amended bounds. -/
theorem C2_witness :
    pyIsAlphaStr ( "hello".data) = true ∧ 2 ≤ ( "hello".data).length ∧
    (2 * ( "hello".data).length ≤
        5 * ((FuzzyGen.corrupt_word ( "hello".data) .medium [2, 1, 4]).1).length ∧
      ((FuzzyGen.corrupt_word ( "hello".data) .medium [2, 1, 4]).1).length ≤
        ( "hello".data).length + 4 ∧
      (4 ≤ ( "hello".data).length →
        ((FuzzyGen.corrupt_word ( "hello".data) .medium [2, 1, 4]).1).length ≤
          2 * ( "hello".data).length)) :=
  ⟨by decide, by decide,
   C2_theorem ( "hello".data) .medium [2, 1, 4] (by decide) (by decide)⟩
